import Mathlib

/-!
Verification of the delta-kernel log-segment and table-changes replay subsystem.

The development shallowly embeds the subsystem: versions are `Nat`, file lists
are Lean lists, fallible operations return `Except`, and the debug-only
assertions of the Rust code are modelled by an explicit `debugAssertions`
flag together with a three-valued outcome (ok / error / panicked).

The `log_segment` module itself ships only with its test files here, so its
operations (`ListedLogFiles::try_new`, `LogSegment::for_snapshot`,
`for_table_changes`, `find_commit_cover`, `protocol_and_metadata`) are
modelled from the specification, with every behavioural choice pinned by the
unit tests in `kernel/src/log_segment/tests.rs` and
`kernel/src/log_segment/crc_tests.rs`.  The table-changes log replay
(`kernel/src/table_changes/log_replay.rs`) is embedded from its source.
-/

set_option autoImplicit false

namespace DeltaKernel

/-- A log-compaction file `<lo>.<hi>.compacted.json` covering versions
`[lo, hi]` inclusive. -/
structure CompactionFile where
  lo : Nat
  hi : Nat
deriving DecidableEq

/-- The kind of a checkpoint file name: single-part, uuid ("v2"), or one part
of a multi-part checkpoint (`part` out of `numParts`). -/
inductive CheckpointPartKind where
  | single
  | uuid
  | multi (part : Nat) (numParts : Nat)
deriving DecidableEq

/-- A parsed checkpoint file: its version and its kind. -/
structure CheckpointFile where
  version : Nat
  kind : CheckpointPartKind
deriving DecidableEq

/-- Errors surfaced by the log-segment builders, mirroring the generic kernel
error messages observed in the tests. -/
inductive DeltaError where
  | nonContiguousCommits
  | expectedFirstCommitVersion (v : Nat)
  | endVersionMismatch (found expected : Nat)
  | startGreaterThanEnd
  | noFilesInSegment
  | crcMissingProtocol
  | crcMissingMetadata
  | changeDataFeedUnsupported (v : Nat)
  | changeDataFeedIncompatibleSchema
deriving DecidableEq

/-- Commit versions are strictly increasing and gap-free (each successor is
the predecessor plus one). -/
def commitsAscendingContiguous : List Nat → Bool
  | [] => true
  | [_] => true
  | a :: b :: rest => decide (b = a + 1) && commitsAscendingContiguous (b :: rest)

/-- Lexicographic order on compaction ranges, the order `ListedLogFiles`
expects its compaction files in. -/
def compactionLe (a b : CompactionFile) : Bool :=
  decide (a.lo < b.lo) || (decide (a.lo = b.lo) && decide (a.hi ≤ b.hi))

/-- Adjacent-pairs sortedness of the compaction list. -/
def compactionsSorted : List CompactionFile → Bool
  | [] => true
  | [_] => true
  | a :: b :: rest => compactionLe a b && compactionsSorted (b :: rest)

/-- All checkpoint parts handed to `ListedLogFiles` must share one version,
and multi-part parts must declare one total count that matches the number of
parts present. -/
def checkpointPartsConsistent (parts : List CheckpointFile) : Bool :=
  match parts with
  | [] => true
  | p :: rest =>
    rest.all (fun q => decide (q.version = p.version)) &&
    (match (p :: rest).filterMap
        (fun q => match q.kind with | .multi _ n => some n | _ => none) with
     | [] => true
     | n :: ns => ns.all (fun m => decide (m = n)) && decide ((p :: rest).length = n))

/-- Outcome of a constructor that can also fail a debug assertion: `panicked`
models a Rust `debug_assert!`/`assert!` panic, `error` a returned `Err`. -/
inductive TryNewResult (α : Type) where
  | ok (val : α)
  | error (e : DeltaError)
  | panicked
deriving DecidableEq

/-- The validated listing: ascending commits, ascending compactions, the
checkpoint parts, and the most recent CRC file version if any. -/
structure ListedLogFiles where
  ascending_commit_files : List Nat
  ascending_compaction_files : List CompactionFile
  checkpoint_parts : List CheckpointFile
  latest_crc_file : Option Nat
deriving DecidableEq

/-- Modelled from the spec: `ListedLogFiles::try_new` is absent from the
sources (only `log_segment/tests.rs` remains).  Per spec section 4.2 the
compaction-ordering and multi-part-checkpoint invariants are debug-only
assertions that panic, while the tests
(`test_listed_log_files_contiguous_commit_files`, which is not gated on
`debug_assertions` and expects an `Err`) pin the commit-contiguity invariant
as an always-on check that fails with an error result.  `debugAssertions`
models whether the build has `debug_assertions` enabled. -/
def ListedLogFiles.try_new (debugAssertions : Bool) (commits : List Nat)
    (compactions : List CompactionFile) (checkpointParts : List CheckpointFile)
    (crc : Option Nat) : TryNewResult ListedLogFiles :=
  if ¬ commitsAscendingContiguous commits then .error .nonContiguousCommits
  else if debugAssertions && ¬ compactionsSorted compactions then .panicked
  else if debugAssertions && ¬ checkpointPartsConsistent checkpointParts then .panicked
  else .ok ⟨commits, compactions, checkpointParts, crc⟩

/-- The resolved log segment: which files must be read for one table version. -/
structure LogSegment where
  checkpoint_version : Option Nat
  checkpoint_parts : List CheckpointFile
  ascending_commit_files : List Nat
  ascending_compaction_files : List CompactionFile
  latest_crc_file : Option Nat
  end_version : Nat
deriving DecidableEq

/-- One element of a commit cover: a single commit file or a compaction file. -/
inductive CoverFile where
  | commit (v : Nat)
  | compaction (lo hi : Nat)
deriving DecidableEq

/-- The versions a cover file accounts for: a commit covers its own version, a
compaction covers the inclusive range `[lo, hi]`. -/
def CoverFile.versions : CoverFile → List Nat
  | .commit v => [v]
  | .compaction lo hi => List.range' lo (hi + 1 - lo)

/-- Largest element of a list of versions, `none` on the empty list. -/
def maxHi : List Nat → Option Nat
  | [] => none
  | h :: t =>
    match maxHi t with
    | none => some h
    | some m => some (max h m)

/-- The widest compaction usable at position `v`: among compactions that start
exactly at `v`, whose range is non-degenerate at `v`, and whose end does not
overshoot the segment's end version, the one with the largest `hi`. -/
def bestCompactionAt (comps : List CompactionFile) (v endV : Nat) : Option Nat :=
  maxHi ((comps.filter
    (fun c => decide (c.lo = v) && decide (v ≤ c.hi) && decide (c.hi ≤ endV))).map (·.hi))

/-- Modelled from the spec: the selection loop of `LogSegment::find_commit_cover`
(absent from the sources).  The spec's prose describes a scan, and the unit
tests (`test_commit_cover_minimal_overlap`, `test_commit_cover_wider_range`,
`test_commit_cover_multi_compaction`, ...) pin it as an ascending greedy
walk: at each uncovered commit version take the widest compaction starting
exactly there (largest end, within the version range), else the commit, then
continue just past what was covered.  `fuel` is an upper bound on the number
of steps; each step consumes at least one commit, so `commits.length` fuel
suffices and the function is total structural recursion. -/
def coverGo (comps : List CompactionFile) (endV : Nat) :
    Nat → List Nat → List CoverFile
  | 0, _ => []
  | _, [] => []
  | fuel + 1, v :: rest =>
    match bestCompactionAt comps v endV with
    | some h =>
      .compaction v h :: coverGo comps endV fuel (rest.dropWhile (fun w => decide (w ≤ h)))
    | none => .commit v :: coverGo comps endV fuel rest

/-- Modelled from the spec: `LogSegment::find_commit_cover` (absent from the
sources), the "which files must I read" selection, returned newest first. -/
def LogSegment.find_commit_cover (seg : LogSegment) : List CoverFile :=
  (coverGo seg.ascending_compaction_files seg.end_version
    seg.ascending_commit_files.length seg.ascending_commit_files).reverse

/-- Concatenation of the versions covered by each file of a cover, in cover
order. -/
def coverNats : List CoverFile → List Nat
  | [] => []
  | f :: rest => f.versions ++ coverNats rest

/-- A cover file is admissible for a segment if it is one of the segment's
commit files, or one of its compaction files not overshooting the end
version. -/
def coverFileOk (seg : LogSegment) : CoverFile → Prop
  | .commit v => v ∈ seg.ascending_commit_files
  | .compaction lo hi =>
    (⟨lo, hi⟩ : CompactionFile) ∈ seg.ascending_compaction_files ∧ hi ≤ seg.end_version

instance (seg : LogSegment) (f : CoverFile) : Decidable (coverFileOk seg f) := by
  cases f <;> simp only [coverFileOk] <;> infer_instance

/-- A newest-first list of admissible files whose covered versions, oldest
first, are exactly the segment's commit versions: each commit version is read
exactly once. -/
def IsCommitCover (files : List CoverFile) (seg : LogSegment) : Prop :=
  coverNats files.reverse = seg.ascending_commit_files ∧ ∀ f ∈ files, coverFileOk seg f

instance (files : List CoverFile) (seg : LogSegment) : Decidable (IsCommitCover files seg) := by
  unfold IsCommitCover; infer_instance

/-- The segment of `test_commit_cover_multi_compaction`: commits 0..=5,
compactions `(1,2)` and `(3,5)`. -/
def segMultiCompaction : LogSegment :=
  ⟨none, [], [0, 1, 2, 3, 4, 5], [⟨1, 2⟩, ⟨3, 5⟩], none, 5⟩

/-- The segment of `test_commit_cover_minimal_overlap`: commits 0..=5,
compactions `(0,2)` and `(2,5)`. -/
def segMinimalOverlap : LogSegment :=
  ⟨none, [], [0, 1, 2, 3, 4, 5], [⟨0, 2⟩, ⟨2, 5⟩], none, 5⟩

/-- The commits of a listing that fall inside the requested table-changes
range: at or after `startVersion` and, when an end version is supplied, at or
before it. -/
def tcAvailable (listedCommits : List Nat) (startVersion : Nat)
    (endVersion : Option Nat) : List Nat :=
  listedCommits.filter
    (fun v => decide (startVersion ≤ v) && endVersion.all (fun e => decide (v ≤ e)))

/-- Modelled from the spec: `LogSegment::for_table_changes` (absent from the
sources; behaviour pinned by `build_table_changes_with_commit_versions`,
`test_non_contiguous_log` and
`table_changes_fails_with_larger_start_version_than_end`).  Checkpoints and
compactions are omitted entirely; the available commits must start exactly at
`startVersion`, be contiguous, and their last version must equal a
caller-supplied end version. -/
def LogSegment.for_table_changes (listedCommits : List Nat) (startVersion : Nat)
    (endVersion : Option Nat) : Except DeltaError LogSegment :=
  if endVersion.any (fun e => decide (e < startVersion)) then .error .startGreaterThanEnd
  else if (tcAvailable listedCommits startVersion endVersion).isEmpty then
    .error .noFilesInSegment
  else if (tcAvailable listedCommits startVersion endVersion).head? ≠ some startVersion then
    .error (.expectedFirstCommitVersion startVersion)
  else if ¬ commitsAscendingContiguous (tcAvailable listedCommits startVersion endVersion) then
    .error .nonContiguousCommits
  else if endVersion.any
      (fun e => decide ((tcAvailable listedCommits startVersion endVersion).getLastD 0 ≠ e)) then
    .error (.endVersionMismatch
      ((tcAvailable listedCommits startVersion endVersion).getLastD 0) (endVersion.getD 0))
  else
    .ok { checkpoint_version := none, checkpoint_parts := [],
          ascending_commit_files := tcAvailable listedCommits startVersion endVersion,
          ascending_compaction_files := [], latest_crc_file := none,
          end_version := (tcAvailable listedCommits startVersion endVersion).getLastD 0 }

/-- The checkpoint files of a listing that sit at version `v`. -/
def checkpointsAtVersion (cps : List CheckpointFile) (v : Nat) : List CheckpointFile :=
  cps.filter (fun c => decide (c.version = v))

/-- The multi-part checkpoint files at version `v` declaring total `n`
(`build_snapshot_with_multiple_incomplete_multipart_checkpoints` pins that
groups with different declared totals coexist at one version and are judged
separately). -/
def multiPartGroup (cps : List CheckpointFile) (v n : Nat) : List CheckpointFile :=
  (checkpointsAtVersion cps v).filter
    (fun c => match c.kind with | .multi _ m => decide (m = n) | _ => false)

/-- A multi-part group is complete when every part index `1..n` is present. -/
def multiPartGroupComplete (cps : List CheckpointFile) (v n : Nat) : Bool :=
  decide (0 < n) && (List.range n).all (fun i =>
    (multiPartGroup cps v n).any (fun c =>
      match c.kind with | .multi p _ => decide (p = i + 1) | _ => false))

/-- The single-part and uuid checkpoint files at version `v`; each such file
alone is a complete checkpoint. -/
def singleCheckpointsAt (cps : List CheckpointFile) (v : Nat) : List CheckpointFile :=
  (checkpointsAtVersion cps v).filter
    (fun c => match c.kind with | .single => true | .uuid => true | _ => false)

/-- Of a list of candidate checkpoint groups, the one with the most parts. -/
def pickLargest : List (List CheckpointFile) → Option (List CheckpointFile)
  | [] => none
  | g :: rest =>
    match pickLargest rest with
    | none => some g
    | some g2 => if g2.length > g.length then some g2 else some g

/-- Modelled from the spec: the complete checkpoint at version `v` of a
listing, if one exists — a complete multi-part group (all declared parts
present) or a single-part/uuid checkpoint file, preferring the group with the
most parts. -/
def completeGroupAt (cps : List CheckpointFile) (v : Nat) : Option (List CheckpointFile) :=
  let totals := ((checkpointsAtVersion cps v).filterMap
    (fun c => match c.kind with | .multi _ n => some n | _ => none)).dedup
  let multiGroups := totals.filterMap (fun n =>
    if multiPartGroupComplete cps v n then some (multiPartGroup cps v n) else none)
  let singles := (singleCheckpointsAt cps v).map (fun c => [c])
  pickLargest (multiGroups ++ singles)

/-- Scan versions `target, target - 1, ..., 0` for the most recent version
carrying a complete checkpoint. -/
def findLastCompleteCheckpoint (cps : List CheckpointFile) : Nat → Option (Nat × List CheckpointFile)
  | 0 => (completeGroupAt cps 0).map (fun g => (0, g))
  | v + 1 =>
    match completeGroupAt cps (v + 1) with
    | some g => some (v + 1, g)
    | none => findLastCompleteCheckpoint cps v

/-- Modelled from the spec: the selection step of `LogSegment::for_snapshot`
(absent from the sources; behaviour pinned by
`build_snapshot_with_missing_checkpoint_part_no_hint` and
`build_snapshot_with_multiple_incomplete_multipart_checkpoints`): take the
most recent complete checkpoint at or before the target version, then the
commits strictly after it up to the target version.  The storage listing and
the optional `_last_checkpoint` hint are outside this model; the listing's
commit versions and checkpoint files are the inputs. -/
def LogSegment.for_snapshot (listedCommits : List Nat) (cps : List CheckpointFile)
    (targetVersion : Nat) : Except DeltaError LogSegment :=
  match findLastCompleteCheckpoint cps targetVersion with
  | some (v, parts) =>
    let commits := listedCommits.filter (fun c => decide (v < c) && decide (c ≤ targetVersion))
    .ok { checkpoint_version := some v, checkpoint_parts := parts,
          ascending_commit_files := commits, ascending_compaction_files := [],
          latest_crc_file := none, end_version := commits.getLastD v }
  | none =>
    let commits := listedCommits.filter (fun c => decide (c ≤ targetVersion))
    if commits.isEmpty then .error .noFilesInSegment
    else
      .ok { checkpoint_version := none, checkpoint_parts := [],
            ascending_commit_files := commits, ascending_compaction_files := [],
            latest_crc_file := none, end_version := commits.getLastD 0 }

/-- A set of checkpoint files forms a complete checkpoint at version `v` of
the listing `cps`: either one single-part or uuid checkpoint file of the
listing at version `v`, or, for some declared total `n`, exactly the
multi-part files of the listing at `v` declaring total `n`, with every part
index `1..n` present. -/
def CompleteCheckpointGroup (cps : List CheckpointFile) (v : Nat)
    (g : List CheckpointFile) : Prop :=
  (∃ c, g = [c] ∧ c ∈ cps ∧ c.version = v ∧ (c.kind = .single ∨ c.kind = .uuid)) ∨
  (∃ n, 0 < n ∧ g = multiPartGroup cps v n ∧
    ∀ i, 1 ≤ i → i ≤ n → ∃ c ∈ g, c.kind = .multi i n)

/-- Option-valued first-wins choice, mirroring Rust `Option::or`. -/
def orO {α : Type} : Option α → Option α → Option α
  | some a, _ => some a
  | none, b => b

/-- The protocol action payload, reduced to the reader/writer versions (the
feature lists play no role in the claims verified here). -/
structure Protocol where
  minReaderVersion : Nat
  minWriterVersion : Nat
deriving DecidableEq

/-- The metadata action payload, reduced to its identifying id field. -/
structure Metadata where
  id : String
deriving DecidableEq

/-- The parsed content of a `.crc` checksum file: its `protocol` and
`metadata` sub-objects, each possibly absent (a malformed file). -/
structure CrcFileContent where
  protocol : Option Protocol
  metadata : Option Metadata
deriving DecidableEq

/-- Modelled from the spec: decoding a CRC file requires both the `protocol`
and `metadata` sub-objects; the absence of either is a decode error
(`test_protocol_metadata_crc_without_protocol_should_error` and its metadata
variant pin that the whole call errors). -/
def readCrc (c : CrcFileContent) : Except DeltaError (Metadata × Protocol) :=
  match c.metadata, c.protocol with
  | some m, some p => .ok (m, p)
  | _, none => .error .crcMissingProtocol
  | none, _ => .error .crcMissingMetadata

/-- One commit file as seen by the protocol/metadata search: its version and
the protocol/metadata action it contains, if any. -/
structure CommitPM where
  version : Nat
  protocol : Option Protocol
  metadata : Option Metadata
deriving DecidableEq

/-- A log segment together with the action content of its files, as consumed
by `protocol_and_metadata`: the ascending commits, the resolved content of
the checkpoint (when one exists), and the latest CRC file with its content. -/
structure PmSegment where
  checkpoint_version : Option Nat
  checkpoint_protocol : Option Protocol
  checkpoint_metadata : Option Metadata
  commits : List CommitPM
  latest_crc : Option (Nat × CrcFileContent)
  end_version : Nat
deriving DecidableEq

/-- Newest-first scan of the given commits (the caller passes them newest
first), keeping the first metadata and first protocol seen, counting one
file read per commit visited, and stopping as soon as both are found. -/
def replayCommitsPM : List CommitPM → Option Metadata × Option Protocol →
    (Option Metadata × Option Protocol) × Nat
  | [], acc => (acc, 0)
  | c :: rest, acc =>
    if acc.1.isSome && acc.2.isSome then (acc, 0)
    else
      let r := replayCommitsPM rest (orO acc.1 c.metadata, orO acc.2 c.protocol)
      (r.1, r.2 + 1)

/-- Full newest-first replay of a segment: the trailing commits newest first,
then the checkpoint as final fallback; the read count covers each commit
visited plus the checkpoint when it is consulted. -/
def fullReplayPM (seg : PmSegment) : (Option Metadata × Option Protocol) × Nat :=
  if (replayCommitsPM seg.commits.reverse (none, none)).1.1.isSome &&
      (replayCommitsPM seg.commits.reverse (none, none)).1.2.isSome then
    replayCommitsPM seg.commits.reverse (none, none)
  else
    match seg.checkpoint_version with
    | some _ =>
      ((orO (replayCommitsPM seg.commits.reverse (none, none)).1.1 seg.checkpoint_metadata,
        orO (replayCommitsPM seg.commits.reverse (none, none)).1.2 seg.checkpoint_protocol),
       (replayCommitsPM seg.commits.reverse (none, none)).2 + 1)
    | none => replayCommitsPM seg.commits.reverse (none, none)

/-- The commits of a segment strictly newer than version `v` (the pruned tail
replayed when a CRC at `v` supersedes the checkpoint). -/
def tailAfter (seg : PmSegment) (v : Nat) : List CommitPM :=
  seg.commits.filter (fun c => decide (v < c.version))

/-- Modelled from the spec: `LogSegment::protocol_and_metadata` (absent from
the sources; behaviour pinned by `crc_tests.rs`).  Returns the resolved
`(metadata, protocol)` pair together with the number of commit/checkpoint
file reads performed (the CRC file itself is not a replay read).  Branches in
priority order per spec section 4.3: a CRC at exactly `end_version` answers
directly; a CRC strictly newer than any checkpoint prunes the replay to the
commits after it and falls back to the CRC for whatever the tail misses;
otherwise the CRC is ignored and a normal full replay runs. -/
def PmSegment.protocol_and_metadata (seg : PmSegment) :
    Except DeltaError ((Option Metadata × Option Protocol) × Nat) :=
  match seg.latest_crc with
  | some (v, content) =>
    if v = seg.end_version then
      (readCrc content).map (fun mp => ((some mp.1, some mp.2), 0))
    else if decide (v < seg.end_version) &&
        seg.checkpoint_version.all (fun cv => decide (cv < v)) then
      if (replayCommitsPM (tailAfter seg v).reverse (none, none)).1.1.isSome &&
          (replayCommitsPM (tailAfter seg v).reverse (none, none)).1.2.isSome then
        .ok (replayCommitsPM (tailAfter seg v).reverse (none, none))
      else
        (readCrc content).map (fun mp =>
          ((orO (replayCommitsPM (tailAfter seg v).reverse (none, none)).1.1 (some mp.1),
            orO (replayCommitsPM (tailAfter seg v).reverse (none, none)).1.2 (some mp.2)),
           (replayCommitsPM (tailAfter seg v).reverse (none, none)).2))
    else .ok (fullReplayPM seg)
  | none => .ok (fullReplayPM seg)

/-- The first metadata among the given ascending commits, scanning newest
first. -/
def firstMetadataNewest (commits : List CommitPM) : Option Metadata :=
  (commits.reverse.filterMap (·.metadata)).head?

/-- The first protocol among the given ascending commits, scanning newest
first. -/
def firstProtocolNewest (commits : List CommitPM) : Option Protocol :=
  (commits.reverse.filterMap (·.protocol)).head?

/-- A deletion-vector descriptor as carried by `DvInfo`; its payload is
opaque to the selection logic and modelled as an optional string. -/
structure DvInfo where
  deletion_vector : Option String
deriving DecidableEq

/-- One row of a commit batch as decoded by the table-changes visitors
(`PreparePhaseVisitor::schema` and `FileActionSelectionVisitor::schema`): a
log action row carries at most one action.  The metadata row carries its
schema string together with the verdict of `check_cdf_table_properties` on
its configuration, and the protocol row carries the verdict of
`ensure_cdf_read_supported` — those two checks live outside
`log_replay.rs` and are modelled by their boolean outcomes. -/
inductive ActionRow where
  | add (path : String) (dataChange : Bool)
  | remove (path : String) (dataChange : Bool) (dv : Option String)
  | cdc (path : String)
  | metaData (schemaString : String) (configurationOk : Bool)
  | protocol (cdfReadSupported : Bool)
  | other
deriving DecidableEq

/-- Whether a row carries a cdc, add, or remove file action. -/
def isFileAction : ActionRow → Bool
  | .add _ _ => true
  | .remove _ _ _ => true
  | .cdc _ => true
  | _ => false

/-- `HashMap::insert` on the remove-DV map: replace an existing binding for
the key, else append. -/
def insertDv (m : List (String × DvInfo)) (k : String) (v : DvInfo) :
    List (String × DvInfo) :=
  if m.any (fun kv => decide (kv.1 = k)) then
    m.map (fun kv => if kv.1 = k then (k, v) else kv)
  else m ++ [(k, v)]

/-- `HashMap::contains_key` on the remove-DV map. -/
def containsKey (m : List (String × DvInfo)) (k : String) : Bool :=
  m.any (fun kv => decide (kv.1 = k))

/-- `HashSet::insert` on the add-path set. -/
def insertPath (s : List String) (p : String) : List String :=
  if s.any (fun q => decide (q = p)) then s else s ++ [p]

/-- Membership in the add-path set. -/
def containsPath (s : List String) (p : String) : Bool :=
  s.any (fun q => decide (q = p))

/-- The cross-batch state of `PreparePhaseVisitor`: the dataChange add paths,
the remove deletion vectors keyed by path, and whether a cdc action was
seen. -/
structure PrepareAcc where
  add_paths : List String
  remove_dvs : List (String × DvInfo)
  has_cdc_action : Bool
deriving DecidableEq

/-- The body of `PreparePhaseVisitor::visit` for one row: adds and removes
are recorded only when no cdc action has been seen yet and their
`dataChange` flag is set; a cdc row flips the flag; metadata and protocol
rows are stashed in the per-batch visitor state for the post-batch checks. -/
def prepareVisitRow (acc : PrepareAcc) (proto : Option Bool)
    (metaInfo : Option (String × Bool)) :
    ActionRow → PrepareAcc × Option Bool × Option (String × Bool)
  | .add path dataChange =>
    if !acc.has_cdc_action && dataChange then
      ({ acc with add_paths := insertPath acc.add_paths path }, proto, metaInfo)
    else (acc, proto, metaInfo)
  | .remove path dataChange dv =>
    if !acc.has_cdc_action && dataChange then
      ({ acc with remove_dvs := insertDv acc.remove_dvs path ⟨dv⟩ }, proto, metaInfo)
    else (acc, proto, metaInfo)
  | .cdc _ => ({ acc with has_cdc_action := true }, proto, metaInfo)
  | .metaData schema cfgOk => (acc, proto, some (schema, cfgOk))
  | .protocol ok => (acc, some ok, metaInfo)
  | .other => (acc, proto, metaInfo)

/-- The fold step of one prepare-phase batch visit. -/
def prepStep (st : PrepareAcc × Option Bool × Option (String × Bool)) (row : ActionRow) :
    PrepareAcc × Option Bool × Option (String × Bool) :=
  prepareVisitRow st.1 st.2.1 st.2.2 row

/-- One batch visit of the prepare phase: fold the row visitor over the
batch, starting from fresh per-batch protocol/metadata visitor state. -/
def prepareVisitBatch (acc : PrepareAcc) (rows : List ActionRow) :
    PrepareAcc × Option Bool × Option (String × Bool) :=
  rows.foldl prepStep (acc, none, none)

/-- The post-batch checks of `prepare_phase`: an unsupported protocol fails
with a change-data-feed-unsupported error, a metadata whose schema differs
from the table schema fails with an incompatible-schema error, and a
metadata whose table properties reject CDF fails as unsupported. -/
def checkBatchPM (commitVersion : Nat) (tableSchema : String)
    (proto : Option Bool) (metaInfo : Option (String × Bool)) : Except DeltaError Unit :=
  if proto.any (fun ok => !ok) then .error (.changeDataFeedUnsupported commitVersion)
  else match metaInfo with
    | some (schema, cfgOk) =>
      if schema ≠ tableSchema then .error .changeDataFeedIncompatibleSchema
      else if !cfgOk then .error (.changeDataFeedUnsupported commitVersion)
      else .ok ()
    | none => .ok ()

/-- One JSON commit file as consumed by the table-changes replay: its version
and the row batches its `read_json_files` pass yields. -/
structure TcCommitFile where
  version : Nat
  batches : List (List ActionRow)
deriving DecidableEq

/-- The batch loop of `prepare_phase`: visit each batch, then run the
post-batch protocol/metadata checks, threading the accumulator. -/
def preparePhaseGo (version : Nat) (tableSchema : String) :
    List (List ActionRow) → PrepareAcc → Except DeltaError PrepareAcc
  | [], acc => .ok acc
  | rows :: rest, acc =>
    match checkBatchPM version tableSchema (prepareVisitBatch acc rows).2.1
        (prepareVisitBatch acc rows).2.2 with
    | .error e => .error e
    | .ok _ => preparePhaseGo version tableSchema rest (prepareVisitBatch acc rows).1

/-- `TableChangesLogReplayProcessor::prepare_phase`: one read pass over the
commit feeding the visitor, then the remove-DV map is cleared when a cdc
action was seen, else retained only for the paths that also appear as adds
in the same commit. -/
def prepare_phase (tableSchema : String) (commit : TcCommitFile) :
    Except DeltaError (Bool × List (String × DvInfo)) :=
  match preparePhaseGo commit.version tableSchema commit.batches ⟨[], [], false⟩ with
  | .error e => .error e
  | .ok acc =>
    if acc.has_cdc_action then .ok (true, [])
    else .ok (false, acc.remove_dvs.filter (fun kv => containsPath acc.add_paths kv.1))

/-- The body of `FileActionSelectionVisitor::visit` for one row: an
unselected row is skipped; with a cdc action in the commit only cdc rows
stay selected; otherwise an add keeps its `dataChange` flag, a remove stays
selected only when its `dataChange` flag is set and its path is not in the
remove-DV map, and any non-file-action row is deselected. -/
def selectionVisitRow (remove_dvs : List (String × DvInfo)) (has_cdc_action : Bool)
    (sel : Bool) (row : ActionRow) : Bool :=
  if !sel then sel
  else if has_cdc_action then
    match row with
    | .cdc _ => true
    | _ => false
  else match row with
    | .add _ dataChange => dataChange
    | .remove path dataChange _ => dataChange && !(containsKey remove_dvs path)
    | _ => false

/-- The whole-batch selection visit: the selection vector and the rows walk
in lockstep. -/
def selectionVisitBatch (remove_dvs : List (String × DvInfo)) (has_cdc_action : Bool)
    (sel : List Bool) (rows : List ActionRow) : List Bool :=
  List.zipWith (selectionVisitRow remove_dvs has_cdc_action) sel rows

/-- Modelled from the spec: `LogReplayProcessor::build_selection_vector` (the
generic replay engine of `log_replay.rs` is absent from the sources): the
data-skipping filter, when configured, computes a row-level selection
vector; with no filter every row starts selected. -/
def build_selection_vector (filter : Option (ActionRow → Bool))
    (rows : List ActionRow) : List Bool :=
  match filter with
  | some f => rows.map f
  | none => rows.map (fun _ => true)

/-- The scan metadata emitted per batch for a Change Data Feed query. -/
structure TableChangesScanMetadata where
  scan_metadata : List ActionRow
  selection_vector : List Bool
  remove_dvs : List (String × DvInfo)
deriving DecidableEq

/-- `HasSelectionVector::has_selected_rows` for the emitted metadata. -/
def has_selected_rows (m : TableChangesScanMetadata) : Bool :=
  m.selection_vector.any (fun b => b)

/-- `TableChangesLogReplayProcessor::process_actions_batch`: build the
data-skipping selection vector, narrow it with the CDF selection visitor,
and emit the batch with the commit's remove-DV map attached. -/
def process_actions_batch (filter : Option (ActionRow → Bool)) (has_cdc_action : Bool)
    (remove_dvs : List (String × DvInfo)) (rows : List ActionRow) :
    TableChangesScanMetadata :=
  { scan_metadata := rows,
    selection_vector := selectionVisitBatch remove_dvs has_cdc_action
      (build_selection_vector filter rows) rows,
    remove_dvs := remove_dvs }

/-- Modelled from the spec: the generic processor's output loop (absent from
the sources) emits a transformed batch only when its selection vector has at
least one set bit (spec section 4.4 step 3). -/
def process_actions_iter (filter : Option (ActionRow → Bool)) (has_cdc_action : Bool)
    (remove_dvs : List (String × DvInfo)) (batches : List (List ActionRow)) :
    List TableChangesScanMetadata :=
  (batches.map (process_actions_batch filter has_cdc_action remove_dvs)).filter
    has_selected_rows

/-- `TableChangesLogReplayProcessor::new`: runs the prepare phase (one
`read_json_files` pass over the commit) and sets up the second read pass
producing the commit's processed batches — both reads are issued here, at
construction, before any output item is consumed. -/
def TableChangesLogReplayProcessor.new (tableSchema : String)
    (filter : Option (ActionRow → Bool)) (commit : TcCommitFile) :
    Except DeltaError (List TableChangesScanMetadata) :=
  match prepare_phase tableSchema commit with
  | .error e => .error e
  | .ok hd => .ok (process_actions_iter filter hd.1 hd.2 commit.batches)

/-- `collect::<DeltaResult<Vec<_>>>` over a fallible map: the first error
aborts the whole collection. -/
def mapE {α β : Type} (f : α → Except DeltaError β) : List α → Except DeltaError (List β)
  | [] => .ok []
  | a :: rest =>
    match f a with
    | .error e => .error e
    | .ok b =>
      match mapE f rest with
      | .error e => .error e
      | .ok bs => .ok (b :: bs)

/-- `table_changes_action_iter`: eagerly collects a processor per commit file
(running every commit's prepare phase) and only then returns the flattened
outputs — any prepare-phase error therefore surfaces at construction, not
while the returned sequence is consumed. -/
def table_changes_action_iter (tableSchema : String)
    (filter : Option (ActionRow → Bool)) (commits : List TcCommitFile) :
    Except DeltaError (List TableChangesScanMetadata) :=
  match mapE (TableChangesLogReplayProcessor.new tableSchema filter) commits with
  | .error e => .error e
  | .ok outs => .ok outs.flatten

/-- All rows of a commit, across its batches. -/
def rowsOf (commit : TcCommitFile) : List ActionRow :=
  commit.batches.flatten

/-- The paths of the commit's `dataChange = true` add actions. -/
def dcAddPaths (commit : TcCommitFile) : List String :=
  (rowsOf commit).filterMap (fun r => match r with | .add p true => some p | _ => none)

/-- The paths of the commit's `dataChange = true` remove actions. -/
def dcRemovePaths (commit : TcCommitFile) : List String :=
  (rowsOf commit).filterMap (fun r => match r with | .remove p true _ => some p | _ => none)

/-- Whether a row is a cdc action row. -/
def isCdcRow : ActionRow → Bool
  | .cdc _ => true
  | _ => false

/-- Whether the commit contains a cdc action row. -/
def hasCdcRow (commit : TcCommitFile) : Bool :=
  (rowsOf commit).any isCdcRow

/-- The paths of the `dataChange = true` add actions of one batch. -/
def dcAddPathsRows (rows : List ActionRow) : List String :=
  rows.filterMap (fun r => match r with | .add p true => some p | _ => none)

/-- The paths of the `dataChange = true` remove actions of one batch. -/
def dcRemovePathsRows (rows : List ActionRow) : List String :=
  rows.filterMap (fun r => match r with | .remove p true _ => some p | _ => none)

/-- The commit of the C4 counterexample: one batch holding a
`dataChange = false` add and a `dataChange = true` remove of the same path. -/
def pairDcFalseCommit : TcCommitFile :=
  ⟨0, [[.add "part-1.parquet" false, .remove "part-1.parquet" true (some "dv1")]]⟩

/-- A benign commit for the C6 counterexample. -/
def okCommit : TcCommitFile := ⟨0, [[.add "part-0.parquet" true]]⟩

/-- A commit whose prepare phase fails (unsupported protocol for CDF), for
the C6 counterexample. -/
def badProtocolCommit : TcCommitFile := ⟨1, [[.protocol false]]⟩

/-- The commit of the C4 witness: an update rewriting `p1` (a `dataChange`
remove carrying a deletion vector paired with a `dataChange` add of the same
path) next to a plain delete of `p2`. -/
def dvUpdateCommit : TcCommitFile :=
  ⟨0, [[.remove "p1" true (some "d1"), .add "p1" true,
        .remove "p2" true (some "d2")]]⟩

/-- The remove-DV map the C4 witness expects: only the paired path `p1`. -/
def dvUpdateMap : List (String × DvInfo) := [("p1", ⟨some "d1"⟩)]

theorem maxHi_eq_none {l : List Nat} : maxHi l = none ↔ l = [] := by
  cases l with
  | nil => simp [maxHi]
  | cons a t =>
    simp only [maxHi]
    cases maxHi t <;> simp

theorem maxHi_spec : ∀ {l : List Nat} {m : Nat}, maxHi l = some m →
    m ∈ l ∧ ∀ x ∈ l, x ≤ m := by
  intro l
  induction l with
  | nil => intro m h; simp [maxHi] at h
  | cons a t ih =>
    intro m h
    simp only [maxHi] at h
    cases ht : maxHi t with
    | none =>
      rw [ht] at h
      have he : t = [] := maxHi_eq_none.mp ht
      subst he
      simp only [Option.some.injEq] at h
      subst h
      simp
    | some m2 =>
      rw [ht] at h
      simp only [Option.some.injEq] at h
      obtain ⟨h1, h2⟩ := ih ht
      subst h
      constructor
      · rcases Nat.le_total m2 a with hle | hle
        · rw [Nat.max_eq_left hle]; exact List.mem_cons_self a t
        · rw [Nat.max_eq_right hle]; exact List.mem_cons_of_mem a h1
      · intro x hx
        rcases List.mem_cons.mp hx with rfl | hx
        · exact Nat.le_max_left _ _
        · exact Nat.le_trans (h2 x hx) (Nat.le_max_right _ _)

theorem bestCompactionAt_spec {comps : List CompactionFile} {v endV h : Nat}
    (hb : bestCompactionAt comps v endV = some h) :
    ((⟨v, h⟩ : CompactionFile) ∈ comps ∧ v ≤ h ∧ h ≤ endV) ∧
      ∀ c ∈ comps, c.lo = v → v ≤ c.hi → c.hi ≤ endV → c.hi ≤ h := by
  unfold bestCompactionAt at hb
  obtain ⟨hmem, hmax⟩ := maxHi_spec hb
  simp only [List.mem_map, List.mem_filter, Bool.and_eq_true, decide_eq_true_eq] at hmem
  obtain ⟨c, ⟨hc, ⟨hlo, hle⟩, hhi⟩, rfl⟩ := hmem
  refine ⟨⟨?_, hlo ▸ hle, hhi⟩, ?_⟩
  · have : c = ⟨v, c.hi⟩ := by cases c; simp_all
    exact this ▸ hc
  · intro c2 hc2 hlo2 hle2 hend2
    apply hmax
    simp only [List.mem_map, List.mem_filter, Bool.and_eq_true, decide_eq_true_eq]
    exact ⟨c2, ⟨hc2, ⟨hlo2, hlo2 ▸ hle2⟩, hend2⟩, rfl⟩

theorem dropWhile_le_range' (h : Nat) :
    ∀ (n s : Nat), (List.range' s n).dropWhile (fun w => decide (w ≤ h)) =
      if s ≤ h then List.range' (h + 1) (s + n - (h + 1)) else List.range' s n := by
  intro n
  induction n with
  | zero =>
    intro s
    simp only [List.range'_zero, List.dropWhile_nil]
    by_cases hs : s ≤ h
    · rw [if_pos hs, show s + 0 - (h + 1) = 0 by omega, List.range'_zero]
    · rw [if_neg hs]
  | succ n ih =>
    intro s
    rw [List.range'_succ, List.dropWhile_cons]
    by_cases hs : s ≤ h
    · rw [if_pos (by simpa using hs), ih (s + 1)]
      by_cases hs1 : s + 1 ≤ h
      · rw [if_pos hs1, if_pos hs]
        congr 1
        omega
      · have he : s = h := by omega
        subst he
        rw [if_neg hs1, if_pos hs]
        rw [show s + (n + 1) - (s + 1) = n by omega]
    · rw [if_neg (by simpa using hs), if_neg hs]

theorem coverGo_versions (comps : List CompactionFile) (endV : Nat) :
    ∀ (fuel n s : Nat), n ≤ fuel → s + n = endV + 1 →
      coverNats (coverGo comps endV fuel (List.range' s n)) = List.range' s n := by
  intro fuel
  induction fuel with
  | zero =>
    intro n s hn he
    have : n = 0 := Nat.le_zero.mp hn
    subst this
    simp [coverGo, coverNats]
  | succ fuel ih =>
    intro n s hn he
    cases n with
    | zero => simp [coverGo, coverNats]
    | succ n =>
      rw [List.range'_succ]
      cases hb : bestCompactionAt comps s endV with
      | none =>
        simp only [coverGo, hb, coverNats, CoverFile.versions]
        rw [ih n (s + 1) (by omega) (by omega)]
        rfl
      | some h =>
        obtain ⟨⟨hmem, hvh, hhe⟩, -⟩ := bestCompactionAt_spec hb
        simp only [coverGo, hb, coverNats, CoverFile.versions]
        rw [dropWhile_le_range' h n (s + 1)]
        by_cases hs1 : s + 1 ≤ h
        · rw [if_pos hs1]
          have e1 : s + 1 + n - (h + 1) = s + n - h := by omega
          rw [e1]
          have hfuel : s + n - h ≤ fuel := by omega
          have hsum : h + 1 + (s + n - h) = endV + 1 := by omega
          rw [ih (s + n - h) (h + 1) hfuel hsum]
          have e3 := List.range'_append_1 s (h + 1 - s) (s + n - h)
          rw [show s + (h + 1 - s) = h + 1 by omega] at e3
          rw [e3, show s + n - h + (h + 1 - s) = n + 1 by omega]
          rfl
        · have hhs : h = s := by omega
          subst hhs
          rw [if_neg hs1]
          have hfuel : n ≤ fuel := by omega
          have hsum : h + 1 + n = endV + 1 := by omega
          rw [ih n (h + 1) hfuel hsum]
          rw [show h + 1 - h = 1 by omega, List.range'_succ]
          rfl

theorem coverNats_append :
    ∀ (a b : List CoverFile), coverNats (a ++ b) = coverNats a ++ coverNats b := by
  intro a b
  induction a with
  | nil => simp [coverNats]
  | cons f t ih => simp [coverNats, ih]

theorem mem_coverNats {x : Nat} {f : CoverFile} :
    ∀ {l : List CoverFile}, f ∈ l → x ∈ f.versions → x ∈ coverNats l := by
  intro l
  induction l with
  | nil => intro hf; simp at hf
  | cons a t ih =>
    intro hf hx
    rcases List.mem_cons.mp hf with rfl | hf
    · exact List.mem_append_left _ hx
    · exact List.mem_append_right _ (ih hf hx)

theorem coverNats_nodup_disjoint :
    ∀ {l : List CoverFile}, (coverNats l).Nodup →
      ∀ {f g : CoverFile}, f ∈ l → g ∈ l → f ≠ g →
        ∀ x, x ∈ f.versions → x ∈ g.versions → False := by
  intro l
  induction l with
  | nil => intro _ f g hf; simp at hf
  | cons a t ih =>
    intro hnd f g hf hg hne x hxf hxg
    rw [show coverNats (a :: t) = a.versions ++ coverNats t from rfl] at hnd
    rw [List.nodup_append] at hnd
    obtain ⟨hnd1, hnd2, hdisj⟩ := hnd
    rcases List.mem_cons.mp hf with hfa | hft
    · rcases List.mem_cons.mp hg with hga | hgt
      · exact hne (hfa.trans hga.symm)
      · subst hfa; exact hdisj hxf (mem_coverNats hgt hxg)
    · rcases List.mem_cons.mp hg with hga | hgt
      · subst hga; exact hdisj hxg (mem_coverNats hft hxf)
      · exact ih hnd2 hft hgt hne x hxf hxg

theorem pairwise_of_coverNats_pairwise {R : Nat → Nat → Prop} :
    ∀ {l : List CoverFile}, (coverNats l).Pairwise R →
      l.Pairwise (fun f g => ∀ x ∈ f.versions, ∀ y ∈ g.versions, R x y) := by
  intro l
  induction l with
  | nil => intro _; exact List.Pairwise.nil
  | cons a t ih =>
    intro hp
    rw [show coverNats (a :: t) = a.versions ++ coverNats t from rfl,
      List.pairwise_append] at hp
    obtain ⟨_, h2, h3⟩ := hp
    exact List.Pairwise.cons (fun g hg x hx y hy => h3 x hx y (mem_coverNats hg hy)) (ih h2)

theorem coverGo_compaction_best (comps : List CompactionFile) (endV : Nat) :
    ∀ (fuel : Nat) (commits : List Nat) (lo hi : Nat),
      CoverFile.compaction lo hi ∈ coverGo comps endV fuel commits →
      bestCompactionAt comps lo endV = some hi := by
  intro fuel
  induction fuel with
  | zero => intro commits lo hi hmem; simp [coverGo] at hmem
  | succ fuel ih =>
    intro commits lo hi hmem
    cases commits with
    | nil => simp [coverGo] at hmem
    | cons v rest =>
      cases hb : bestCompactionAt comps v endV with
      | none =>
        simp only [coverGo, hb] at hmem
        rcases List.mem_cons.mp hmem with habs | hmem
        · exact absurd habs (by simp)
        · exact ih _ lo hi hmem
      | some h =>
        simp only [coverGo, hb] at hmem
        rcases List.mem_cons.mp hmem with heq | hmem
        · obtain ⟨rfl, rfl⟩ : lo = v ∧ hi = h := by
            simpa [CoverFile.compaction.injEq] using heq
          exact hb
        · exact ih _ lo hi hmem

/-- C1 (amended): for a segment whose ascending commit files are the
contiguous run `[start, start + n)` ending at the segment's end version,
`find_commit_cover` returns a newest-first list of files whose covered
versions, read oldest-first, are exactly the segment's commit versions (so no
version is covered twice and in particular no commit and compaction in the
cover overlap), and every compaction it selects is the widest one available
that starts at that point (the largest end among the segment's compactions
with that exact start that stay within the version range).  The cover is not
required to have minimal cardinality: the ascending greedy selection can be
beaten when compaction ranges overlap (see the counterexample). -/
theorem c1_commit_cover_properties (seg : LogSegment) (start n : Nat)
    (hcommits : seg.ascending_commit_files = List.range' start n)
    (hend : start + n = seg.end_version + 1) :
    coverNats seg.find_commit_cover.reverse = List.range' start n ∧
    (∀ v lo hi, CoverFile.commit v ∈ seg.find_commit_cover →
      CoverFile.compaction lo hi ∈ seg.find_commit_cover → ¬ (lo ≤ v ∧ v ≤ hi)) ∧
    (∀ lo hi, CoverFile.compaction lo hi ∈ seg.find_commit_cover →
      ((⟨lo, hi⟩ : CompactionFile) ∈ seg.ascending_compaction_files ∧ lo ≤ hi ∧
        hi ≤ seg.end_version ∧
        ∀ c ∈ seg.ascending_compaction_files, c.lo = lo → c.lo ≤ c.hi →
          c.hi ≤ seg.end_version → c.hi ≤ hi)) ∧
    seg.find_commit_cover.Pairwise
      (fun f g => ∀ x ∈ f.versions, ∀ y ∈ g.versions, y < x) := by
  have hgo : coverNats (coverGo seg.ascending_compaction_files seg.end_version
      seg.ascending_commit_files.length seg.ascending_commit_files) = List.range' start n := by
    rw [hcommits, List.length_range']
    exact coverGo_versions _ _ n n start (Nat.le_refl n) hend
  have hrev : seg.find_commit_cover.reverse = coverGo seg.ascending_compaction_files
      seg.end_version seg.ascending_commit_files.length seg.ascending_commit_files := by
    unfold LogSegment.find_commit_cover
    exact List.reverse_reverse _
  refine ⟨by rw [hrev]; exact hgo, ?_, ?_, ?_⟩
  · intro v lo hi hcm hcp hboth
    obtain ⟨hlov, hvhi⟩ := hboth
    have hnd : (coverNats (coverGo seg.ascending_compaction_files seg.end_version
        seg.ascending_commit_files.length seg.ascending_commit_files)).Nodup := by
      rw [hgo]; exact List.nodup_range' start n
    have hcm2 : CoverFile.commit v ∈ coverGo seg.ascending_compaction_files seg.end_version
        seg.ascending_commit_files.length seg.ascending_commit_files := by
      rw [← hrev]; exact List.mem_reverse.mpr hcm
    have hcp2 : CoverFile.compaction lo hi ∈ coverGo seg.ascending_compaction_files
        seg.end_version seg.ascending_commit_files.length seg.ascending_commit_files := by
      rw [← hrev]; exact List.mem_reverse.mpr hcp
    refine coverNats_nodup_disjoint hnd hcm2 hcp2 (by simp) v (by simp [CoverFile.versions]) ?_
    simp only [CoverFile.versions, List.mem_range'_1]
    omega
  · intro lo hi hcp
    have hcp2 : CoverFile.compaction lo hi ∈ coverGo seg.ascending_compaction_files
        seg.end_version seg.ascending_commit_files.length seg.ascending_commit_files := by
      rw [← hrev]; exact List.mem_reverse.mpr hcp
    have hb := coverGo_compaction_best _ _ _ _ lo hi hcp2
    obtain ⟨⟨hmem, hvh, hhe⟩, hmax⟩ := bestCompactionAt_spec hb
    exact ⟨hmem, hvh, hhe, fun c hc hlo hle hend2 => hmax c hc hlo (hlo ▸ hle) hend2⟩
  · have hpw : (coverNats (coverGo seg.ascending_compaction_files seg.end_version
        seg.ascending_commit_files.length seg.ascending_commit_files)).Pairwise (· < ·) := by
      rw [hgo]; exact List.pairwise_lt_range' start n
    have hblocks := pairwise_of_coverNats_pairwise hpw
    rw [← hrev] at hblocks
    rw [List.pairwise_reverse] at hblocks
    exact hblocks.imp (fun {f g} hfg x hx y hy => hfg y hy x hx)

/-- C1 witness: the amended theorem applied to the
`test_commit_cover_multi_compaction` segment (commits 0..=5, compactions
`(1,2)` and `(3,5)`). -/
theorem c1_commit_cover_properties_witness :
    coverNats segMultiCompaction.find_commit_cover.reverse = List.range' 0 6 ∧
    (∀ v lo hi, CoverFile.commit v ∈ segMultiCompaction.find_commit_cover →
      CoverFile.compaction lo hi ∈ segMultiCompaction.find_commit_cover →
      ¬ (lo ≤ v ∧ v ≤ hi)) ∧
    (∀ lo hi, CoverFile.compaction lo hi ∈ segMultiCompaction.find_commit_cover →
      ((⟨lo, hi⟩ : CompactionFile) ∈ segMultiCompaction.ascending_compaction_files ∧ lo ≤ hi ∧
        hi ≤ segMultiCompaction.end_version ∧
        ∀ c ∈ segMultiCompaction.ascending_compaction_files, c.lo = lo → c.lo ≤ c.hi →
          c.hi ≤ segMultiCompaction.end_version → c.hi ≤ hi)) ∧
    segMultiCompaction.find_commit_cover.Pairwise
      (fun f g => ∀ x ∈ f.versions, ∀ y ∈ g.versions, y < x) :=
  c1_commit_cover_properties segMultiCompaction 0 6 (by decide) (by decide)

/-- C1 counterexample: on commits 0..=5 with compactions `(0,2)` and `(2,5)`
(the configuration of `test_commit_cover_minimal_overlap`), the computed
cover is the four files `[Commit 5, Commit 4, Commit 3, Compaction(0,2)]`,
yet the three files `[Compaction(2,5), Commit 1, Commit 0]` are also a valid
cover of the segment's version range — so the result neither has minimal
cardinality nor selects the widest compaction covering endpoint 5. -/
theorem c1_cover_not_minimal_counterexample :
    segMinimalOverlap.find_commit_cover =
      [.commit 5, .commit 4, .commit 3, .compaction 0 2] ∧
    IsCommitCover [.compaction 2 5, .commit 1, .commit 0] segMinimalOverlap ∧
    [CoverFile.compaction 2 5, .commit 1, .commit 0].length <
      segMinimalOverlap.find_commit_cover.length := by
  refine ⟨by decide, by decide, by decide⟩

theorem except_error_of_not_ok {α : Type} (r : Except DeltaError α)
    (h : ∀ a, r ≠ .ok a) : ∃ e, r = .error e := by
  cases r with
  | error e => exact ⟨e, rfl⟩
  | ok a => exact absurd rfl (h a)

/-- C5 (amended): `ListedLogFiles::try_new` validates the commit-file
contiguity invariant in every build and a violation fails with an error
result, while the compaction-ordering and multi-part-checkpoint invariants
are validated only when debug assertions are enabled and a violation fails by
panicking; with debug assertions off, those two are assumed upheld by the
caller and any input passing the contiguity check is accepted. -/
theorem c5_try_new_validation (debugAssertions : Bool) (commits : List Nat)
    (compactions : List CompactionFile) (checkpointParts : List CheckpointFile)
    (crc : Option Nat) :
    (commitsAscendingContiguous commits = false →
      ListedLogFiles.try_new debugAssertions commits compactions checkpointParts crc =
        .error .nonContiguousCommits) ∧
    (commitsAscendingContiguous commits = true →
      ListedLogFiles.try_new false commits compactions checkpointParts crc =
        .ok ⟨commits, compactions, checkpointParts, crc⟩) ∧
    (commitsAscendingContiguous commits = true →
      (compactionsSorted compactions = false ∨ checkpointPartsConsistent checkpointParts = false) →
      ListedLogFiles.try_new true commits compactions checkpointParts crc = .panicked) := by
  refine ⟨?_, ?_, ?_⟩
  · intro hnc
    unfold ListedLogFiles.try_new
    rw [if_pos (by simp [hnc])]
  · intro hc
    unfold ListedLogFiles.try_new
    rw [if_neg (by simp [hc]), if_neg (by simp), if_neg (by simp)]
  · intro hc hviol
    unfold ListedLogFiles.try_new
    rw [if_neg (by simp [hc])]
    rcases hviol with hv | hv
    · rw [if_pos (by simp [hv])]
    · by_cases hs : compactionsSorted compactions = true
      · rw [if_neg (by simp [hs]), if_pos (by simp [hv])]
      · rw [if_pos (by simp [Bool.eq_false_iff.mpr hs, (Bool.not_eq_true _).mp hs])]

/-- C5 witness: the amended theorem applied at concrete inputs: a contiguous
listing is accepted in a release build even with unsorted compactions, and
the same unsorted compactions panic in a debug build. -/
theorem c5_try_new_validation_witness :
    ListedLogFiles.try_new false [5, 6, 7] [⟨0, 4⟩, ⟨0, 3⟩] [] none =
      .ok ⟨[5, 6, 7], [⟨0, 4⟩, ⟨0, 3⟩], [], none⟩ ∧
    ListedLogFiles.try_new true [5, 6, 7] [⟨0, 4⟩, ⟨0, 3⟩] [] none = .panicked :=
  ⟨(c5_try_new_validation false [5, 6, 7] [⟨0, 4⟩, ⟨0, 3⟩] [] none).2.1 (by decide),
   (c5_try_new_validation true [5, 6, 7] [⟨0, 4⟩, ⟨0, 3⟩] [] none).2.2 (by decide)
     (Or.inl (by decide))⟩

/-- C5 counterexample: a commit-contiguity violation (commits 1 and 3) is
rejected with an error result in a release build (debug assertions off) and
also errors rather than panicking in a debug build — contradicting the claim
that the ordering invariants are validated only in debug builds and fail by
panicking. -/
theorem c5_debug_only_panic_counterexample :
    ListedLogFiles.try_new false [1, 3] [] [] none = .error .nonContiguousCommits ∧
    ListedLogFiles.try_new true [1, 3] [] [] none = .error .nonContiguousCommits := by
  exact ⟨by decide, by decide⟩

/-- C7: `for_table_changes` never returns checkpoint or compaction files; a
successful build returns exactly the available commits, which start at
`start_version`, are contiguous, and end at any caller-supplied end version —
and it fails whenever the first available commit differs from
`start_version`, the available commits are non-contiguous, or the resolved
end version does not match a caller-supplied one. -/
theorem c7_for_table_changes (listedCommits : List Nat) (startVersion : Nat)
    (endVersion : Option Nat) :
    (∀ seg, LogSegment.for_table_changes listedCommits startVersion endVersion = .ok seg →
      seg.checkpoint_version = none ∧ seg.checkpoint_parts = [] ∧
      seg.ascending_compaction_files = [] ∧
      seg.ascending_commit_files = tcAvailable listedCommits startVersion endVersion ∧
      (tcAvailable listedCommits startVersion endVersion).head? = some startVersion ∧
      commitsAscendingContiguous (tcAvailable listedCommits startVersion endVersion) = true ∧
      (∀ e0, endVersion = some e0 →
        (tcAvailable listedCommits startVersion endVersion).getLastD 0 = e0)) ∧
    ((tcAvailable listedCommits startVersion endVersion).head? ≠ some startVersion →
      ∃ e, LogSegment.for_table_changes listedCommits startVersion endVersion = .error e) ∧
    (commitsAscendingContiguous (tcAvailable listedCommits startVersion endVersion) = false →
      ∃ e, LogSegment.for_table_changes listedCommits startVersion endVersion = .error e) ∧
    (∀ e0, endVersion = some e0 →
      (tcAvailable listedCommits startVersion endVersion).getLastD 0 ≠ e0 →
      ∃ e, LogSegment.for_table_changes listedCommits startVersion endVersion = .error e) := by
  have hmain : ∀ seg,
      LogSegment.for_table_changes listedCommits startVersion endVersion = .ok seg →
      seg.checkpoint_version = none ∧ seg.checkpoint_parts = [] ∧
      seg.ascending_compaction_files = [] ∧
      seg.ascending_commit_files = tcAvailable listedCommits startVersion endVersion ∧
      (tcAvailable listedCommits startVersion endVersion).head? = some startVersion ∧
      commitsAscendingContiguous (tcAvailable listedCommits startVersion endVersion) = true ∧
      (∀ e0, endVersion = some e0 →
        (tcAvailable listedCommits startVersion endVersion).getLastD 0 = e0) := by
    intro seg hok
    unfold LogSegment.for_table_changes at hok
    by_cases h1 : endVersion.any (fun e => decide (e < startVersion)) = true
    · rw [if_pos h1] at hok; cases hok
    · rw [if_neg h1] at hok
      by_cases h2 : (tcAvailable listedCommits startVersion endVersion).isEmpty = true
      · rw [if_pos h2] at hok; cases hok
      · rw [if_neg h2] at hok
        by_cases h3 : (tcAvailable listedCommits startVersion endVersion).head? ≠
            some startVersion
        · rw [if_pos h3] at hok; cases hok
        · rw [if_neg h3] at hok
          by_cases h4 : commitsAscendingContiguous
              (tcAvailable listedCommits startVersion endVersion) = true
          · rw [if_neg (by simp [h4])] at hok
            by_cases h5 : endVersion.any (fun e =>
                decide ((tcAvailable listedCommits startVersion endVersion).getLastD 0 ≠ e)) = true
            · rw [if_pos h5] at hok; cases hok
            · rw [if_neg h5] at hok
              cases hok
              refine ⟨rfl, rfl, rfl, rfl, not_not.mp h3, h4, ?_⟩
              intro e0 he0
              subst he0
              simpa [Option.any] using h5
          · rw [if_pos (by simp [h4])] at hok; cases hok
  refine ⟨hmain, ?_, ?_, ?_⟩
  · intro hhd
    exact except_error_of_not_ok _ (fun seg hok => hhd (hmain seg hok).2.2.2.2.1)
  · intro hnc
    exact except_error_of_not_ok _ (fun seg hok => by
      have := (hmain seg hok).2.2.2.2.2.1
      rw [this] at hnc
      cases hnc)
  · intro e0 he0 hne
    exact except_error_of_not_ok _ (fun seg hok =>
      hne ((hmain seg hok).2.2.2.2.2.2 e0 he0))

/-- C7 witness: the theorem applied to the `test_non_contiguous_log`
configuration (commits 0 and 2): the available commits are non-contiguous,
so the build fails with an error. -/
theorem c7_for_table_changes_witness :
    ∃ e, LogSegment.for_table_changes [0, 2] 0 none = Except.error e :=
  (c7_for_table_changes [0, 2] 0 none).2.2.1 (by decide)

theorem pickLargest_mem : ∀ {l : List (List CheckpointFile)} {g : List CheckpointFile},
    pickLargest l = some g → g ∈ l := by
  intro l
  induction l with
  | nil => intro g h; simp [pickLargest] at h
  | cons a t ih =>
    intro g h
    cases hp : pickLargest t with
    | none =>
      simp only [pickLargest, hp, Option.some.injEq] at h
      exact h ▸ List.mem_cons_self a t
    | some g2 =>
      simp only [pickLargest, hp] at h
      by_cases hlen : g2.length > a.length
      · rw [if_pos hlen] at h
        simp only [Option.some.injEq] at h
        exact List.mem_cons_of_mem a (h ▸ ih hp)
      · rw [if_neg hlen] at h
        simp only [Option.some.injEq] at h
        exact h ▸ List.mem_cons_self a t

theorem mem_multiPartGroup {cps : List CheckpointFile} {v n : Nat} {c : CheckpointFile}
    (hc : c ∈ multiPartGroup cps v n) :
    c ∈ cps ∧ c.version = v ∧ ∃ p, c.kind = .multi p n := by
  unfold multiPartGroup checkpointsAtVersion at hc
  rw [List.mem_filter] at hc
  obtain ⟨hc1, hk⟩ := hc
  rw [List.mem_filter] at hc1
  obtain ⟨hmem, hv⟩ := hc1
  refine ⟨hmem, by simpa using hv, ?_⟩
  cases hkind : c.kind with
  | multi p m =>
    rw [hkind] at hk
    simp only [decide_eq_true_eq] at hk
    exact ⟨p, by rw [hk]⟩
  | single => rw [hkind] at hk; cases hk
  | uuid => rw [hkind] at hk; cases hk

theorem completeGroupAt_sound {cps : List CheckpointFile} {v : Nat} {g : List CheckpointFile}
    (h : completeGroupAt cps v = some g) :
    CompleteCheckpointGroup cps v g ∧ ∀ f ∈ g, f ∈ cps ∧ f.version = v := by
  unfold completeGroupAt at h
  have hmem := pickLargest_mem h
  rw [List.mem_append] at hmem
  rcases hmem with hmulti | hsingle
  · rw [List.mem_filterMap] at hmulti
    obtain ⟨n, _, hfn⟩ := hmulti
    by_cases hcomp : multiPartGroupComplete cps v n = true
    · rw [if_pos hcomp] at hfn
      simp only [Option.some.injEq] at hfn
      subst hfn
      unfold multiPartGroupComplete at hcomp
      rw [Bool.and_eq_true, decide_eq_true_eq, List.all_eq_true] at hcomp
      obtain ⟨hn, hall⟩ := hcomp
      constructor
      · refine Or.inr ⟨n, hn, rfl, ?_⟩
        intro i h1i hin
        have hi := hall (i - 1) (by rw [List.mem_range]; omega)
        rw [List.any_eq_true] at hi
        obtain ⟨c, hcmem, hck⟩ := hi
        refine ⟨c, hcmem, ?_⟩
        obtain ⟨_, _, p, hp⟩ := mem_multiPartGroup hcmem
        rw [hp] at hck
        simp only [decide_eq_true_eq] at hck
        rw [hp, hck]
        congr 1
        omega
      · intro f hf
        have := mem_multiPartGroup hf
        exact ⟨this.1, this.2.1⟩
    · rw [if_neg hcomp] at hfn; cases hfn
  · rw [List.mem_map] at hsingle
    obtain ⟨c, hc, rfl⟩ := hsingle
    unfold singleCheckpointsAt checkpointsAtVersion at hc
    rw [List.mem_filter] at hc
    obtain ⟨hc1, hk⟩ := hc
    rw [List.mem_filter] at hc1
    obtain ⟨hmem, hv⟩ := hc1
    have hver : c.version = v := by simpa using hv
    have hkind : c.kind = .single ∨ c.kind = .uuid := by
      cases hkc : c.kind with
      | single => exact Or.inl rfl
      | uuid => exact Or.inr rfl
      | multi p m => rw [hkc] at hk; cases hk
    constructor
    · exact Or.inl ⟨c, rfl, hmem, hver, hkind⟩
    · intro f hf
      rw [List.mem_singleton] at hf
      subst hf
      exact ⟨hmem, hver⟩

theorem findLastCompleteCheckpoint_spec (cps : List CheckpointFile) :
    ∀ target : Nat,
      (∀ v g, findLastCompleteCheckpoint cps target = some (v, g) →
        v ≤ target ∧ completeGroupAt cps v = some g ∧
        ∀ w, v < w → w ≤ target → completeGroupAt cps w = none) ∧
      (findLastCompleteCheckpoint cps target = none →
        ∀ w, w ≤ target → completeGroupAt cps w = none) := by
  intro target
  induction target with
  | zero =>
    constructor
    · intro v g h
      unfold findLastCompleteCheckpoint at h
      cases hc : completeGroupAt cps 0 with
      | none => rw [hc] at h; cases h
      | some g0 =>
        rw [hc] at h
        simp only [Option.map_some', Option.some.injEq, Prod.mk.injEq] at h
        obtain ⟨rfl, rfl⟩ := h
        exact ⟨Nat.le_refl 0, hc, fun w hw1 hw2 => absurd (Nat.lt_of_lt_of_le hw1 hw2)
          (Nat.lt_irrefl _)⟩
    · intro h w hw
      unfold findLastCompleteCheckpoint at h
      cases hc : completeGroupAt cps 0 with
      | none => rwa [Nat.le_zero.mp hw]
      | some g0 => rw [hc] at h; cases h
  | succ t ih =>
    constructor
    · intro v g h
      unfold findLastCompleteCheckpoint at h
      cases hc : completeGroupAt cps (t + 1) with
      | some g0 =>
        rw [hc] at h
        simp only [Option.some.injEq, Prod.mk.injEq] at h
        obtain ⟨rfl, rfl⟩ := h
        exact ⟨Nat.le_refl _, hc, fun w hw1 hw2 => absurd (Nat.lt_of_lt_of_le hw1 hw2)
          (Nat.lt_irrefl _)⟩
      | none =>
        rw [hc] at h
        obtain ⟨hv, hcg, hnone⟩ := ih.1 v g h
        refine ⟨Nat.le_succ_of_le hv, hcg, ?_⟩
        intro w hw1 hw2
        rcases Nat.lt_or_ge w (t + 1) with hlt | hge
        · exact hnone w hw1 (by omega)
        · have : w = t + 1 := by omega
          rw [this]; exact hc
    · intro h w hw
      unfold findLastCompleteCheckpoint at h
      cases hc : completeGroupAt cps (t + 1) with
      | some g0 => rw [hc] at h; cases h
      | none =>
        rw [hc] at h
        rcases Nat.lt_or_ge w (t + 1) with hlt | hge
        · exact ih.2 h w (by omega)
        · have : w = t + 1 := by omega
          rw [this]; exact hc

/-- C3: a successfully built snapshot segment selects the most recent
complete checkpoint at or before the target version — its parts are exactly
one complete group of the listing at that version, so an incomplete
multi-part checkpoint is never selected even partially and resolution falls
back to the next older complete checkpoint — and the segment's ascending
commit files are exactly the listing's commits strictly after the selected
checkpoint up to the target version (all commits up to the target when no
complete checkpoint exists). -/
theorem c3_for_snapshot (listedCommits : List Nat) (cps : List CheckpointFile)
    (targetVersion : Nat) (seg : LogSegment)
    (hok : LogSegment.for_snapshot listedCommits cps targetVersion = .ok seg) :
    (∀ v, seg.checkpoint_version = some v →
      v ≤ targetVersion ∧
      CompleteCheckpointGroup cps v seg.checkpoint_parts ∧
      (∀ f ∈ seg.checkpoint_parts, f ∈ cps ∧ f.version = v) ∧
      (∀ w, w ≤ targetVersion → (completeGroupAt cps w).isSome → w ≤ v) ∧
      seg.ascending_commit_files =
        listedCommits.filter (fun c => decide (v < c) && decide (c ≤ targetVersion))) ∧
    (seg.checkpoint_version = none →
      (∀ w, w ≤ targetVersion → completeGroupAt cps w = none) ∧
      seg.ascending_commit_files =
        listedCommits.filter (fun c => decide (c ≤ targetVersion))) := by
  unfold LogSegment.for_snapshot at hok
  cases hfind : findLastCompleteCheckpoint cps targetVersion with
  | some vg =>
    rw [hfind] at hok
    cases hok
    obtain ⟨hv, hcg, hnone⟩ := (findLastCompleteCheckpoint_spec cps targetVersion).1 vg.1 vg.2
      (by rw [hfind])
    constructor
    · intro v hveq
      simp only [Option.some.injEq] at hveq
      subst hveq
      obtain ⟨hcomplete, hparts⟩ := completeGroupAt_sound hcg
      refine ⟨hv, hcomplete, hparts, ?_, rfl⟩
      intro w hw hsome
      by_contra hgt
      have := hnone w (by omega) hw
      rw [this] at hsome
      cases hsome
    · intro hnone2; cases hnone2
  | none =>
    rw [hfind] at hok
    by_cases hemp : (listedCommits.filter (fun c => decide (c ≤ targetVersion))).isEmpty = true
    · rw [if_pos hemp] at hok; cases hok
    · rw [if_neg hemp] at hok
      cases hok
      constructor
      · intro v hv; cases hv
      · intro _
        exact ⟨(findLastCompleteCheckpoint_spec cps targetVersion).2 hfind, rfl⟩

/-- C3 witness: the theorem applied to the
`build_snapshot_with_missing_checkpoint_part_no_hint` configuration: commits
0..=7, single-part checkpoints at 1 and 3, a 3-part checkpoint at 5 missing
part 2; the built segment selects the complete checkpoint at version 3 and
carries commits 4..=7. -/
theorem c3_for_snapshot_witness :
    (∀ v, (some 3 : Option Nat) = some v →
      v ≤ 7 ∧
      CompleteCheckpointGroup
        [⟨1, .single⟩, ⟨3, .single⟩, ⟨5, .multi 1 3⟩, ⟨5, .multi 3 3⟩] v
        [⟨3, .single⟩] ∧
      (∀ f ∈ ([⟨3, .single⟩] : List CheckpointFile),
        f ∈ ([⟨1, .single⟩, ⟨3, .single⟩, ⟨5, .multi 1 3⟩, ⟨5, .multi 3 3⟩] :
          List CheckpointFile) ∧ f.version = v) ∧
      (∀ w, w ≤ 7 →
        (completeGroupAt [⟨1, .single⟩, ⟨3, .single⟩, ⟨5, .multi 1 3⟩, ⟨5, .multi 3 3⟩]
          w).isSome → w ≤ v) ∧
      ([4, 5, 6, 7] : List Nat) =
        [0, 1, 2, 3, 4, 5, 6, 7].filter (fun c => decide (v < c) && decide (c ≤ 7))) ∧
    ((some 3 : Option Nat) = none →
      (∀ w, w ≤ 7 →
        completeGroupAt [⟨1, .single⟩, ⟨3, .single⟩, ⟨5, .multi 1 3⟩, ⟨5, .multi 3 3⟩]
          w = none) ∧
      ([4, 5, 6, 7] : List Nat) = [0, 1, 2, 3, 4, 5, 6, 7].filter
        (fun c => decide (c ≤ 7))) :=
  c3_for_snapshot [0, 1, 2, 3, 4, 5, 6, 7]
    [⟨1, .single⟩, ⟨3, .single⟩, ⟨5, .multi 1 3⟩, ⟨5, .multi 3 3⟩] 7
    ⟨some 3, [⟨3, .single⟩], [4, 5, 6, 7], [], none, 7⟩ (by rfl)

theorem orO_none_right {α : Type} (a : Option α) : orO a none = a := by
  cases a <;> rfl

theorem orO_assoc {α : Type} (a b c : Option α) : orO (orO a b) c = orO a (orO b c) := by
  cases a <;> rfl

theorem head?_filterMap_cons {α β : Type} (f : α → Option β) (c : α) (l : List α) :
    ((c :: l).filterMap f).head? = orO (f c) ((l.filterMap f).head?) := by
  cases hf : f c <;> simp [List.filterMap_cons, hf, orO]

theorem replayCommitsPM_fst :
    ∀ (l : List CommitPM) (acc : Option Metadata × Option Protocol),
      (replayCommitsPM l acc).1 =
        (orO acc.1 ((l.filterMap (·.metadata)).head?),
         orO acc.2 ((l.filterMap (·.protocol)).head?)) := by
  intro l
  induction l with
  | nil =>
    intro acc
    simp only [replayCommitsPM, List.filterMap_nil, List.head?_nil, orO_none_right]
  | cons c rest ih =>
    intro acc
    simp only [replayCommitsPM]
    by_cases hs : (acc.1.isSome && acc.2.isSome) = true
    · rw [if_pos hs]
      rw [Bool.and_eq_true] at hs
      obtain ⟨m, hm⟩ := Option.isSome_iff_exists.mp hs.1
      obtain ⟨p, hp⟩ := Option.isSome_iff_exists.mp hs.2
      rw [head?_filterMap_cons, head?_filterMap_cons, hm, hp]
      cases acc
      simp only at hm hp
      rw [hm, hp]
      rfl
    · rw [if_neg hs]
      simp only [ih]
      rw [head?_filterMap_cons, head?_filterMap_cons]
      rw [orO_assoc, orO_assoc]

theorem replayCommitsPM_reads_le :
    ∀ (l : List CommitPM) (acc : Option Metadata × Option Protocol),
      (replayCommitsPM l acc).2 ≤ l.length := by
  intro l
  induction l with
  | nil => intro acc; simp [replayCommitsPM]
  | cons c rest ih =>
    intro acc
    simp only [replayCommitsPM]
    by_cases hs : (acc.1.isSome && acc.2.isSome) = true
    · rw [if_pos hs]; simp
    · rw [if_neg hs]
      simp only [List.length_cons]
      exact Nat.add_le_add_right (ih _) 1

theorem fullReplayPM_crc_irrelevant (seg : PmSegment) (x : Option (Nat × CrcFileContent)) :
    fullReplayPM { seg with latest_crc := x } = fullReplayPM seg := by
  cases seg
  rfl

/-- C2: `protocol_and_metadata` resolves in priority order: a well-formed CRC
at exactly the end version answers directly with zero replay reads; a CRC
strictly newer than any checkpoint (or with no checkpoint present) makes the
resolution replay only the commits newer than the CRC, newest first, with a
found action superseding the CRC and a missing one falling back to the CRC's
value, reading at most the pruned tail; a CRC at or below the checkpoint
version is ignored entirely — the result is the same as for a segment with
no CRC at all, a normal full replay. -/
theorem c2_protocol_and_metadata (seg : PmSegment) :
    (∀ v content m p, seg.latest_crc = some (v, content) → v = seg.end_version →
      content.metadata = some m → content.protocol = some p →
      seg.protocol_and_metadata = .ok ((some m, some p), 0)) ∧
    (∀ v content m p, seg.latest_crc = some (v, content) → v < seg.end_version →
      (∀ cv, seg.checkpoint_version = some cv → cv < v) →
      content.metadata = some m → content.protocol = some p →
      ∃ reads, seg.protocol_and_metadata = .ok
        ((orO (firstMetadataNewest (tailAfter seg v)) (some m),
          orO (firstProtocolNewest (tailAfter seg v)) (some p)), reads) ∧
        reads ≤ (tailAfter seg v).length) ∧
    (∀ v content cv, seg.latest_crc = some (v, content) → v < seg.end_version →
      seg.checkpoint_version = some cv → v ≤ cv →
      seg.protocol_and_metadata =
        PmSegment.protocol_and_metadata { seg with latest_crc := none }) ∧
    (seg.latest_crc = none → seg.protocol_and_metadata = .ok (fullReplayPM seg)) := by
  refine ⟨?_, ?_, ?_, ?_⟩
  · intro v content m p hcrc hv hm hp
    unfold PmSegment.protocol_and_metadata
    simp only [hcrc]
    rw [if_pos hv]
    simp [readCrc, hm, hp, Except.map]
  · intro v content m p hcrc hv hcp hm hp
    unfold PmSegment.protocol_and_metadata
    simp only [hcrc]
    rw [if_neg (by omega)]
    have hcond : (decide (v < seg.end_version) &&
        seg.checkpoint_version.all (fun cv => decide (cv < v))) = true := by
      rw [Bool.and_eq_true, decide_eq_true_eq]
      refine ⟨hv, ?_⟩
      cases hc : seg.checkpoint_version with
      | none => rfl
      | some cv => simpa [Option.all] using hcp cv hc
    rw [if_pos hcond]
    have hfst := replayCommitsPM_fst (tailAfter seg v).reverse (none, none)
    have hm1 : (replayCommitsPM (tailAfter seg v).reverse (none, none)).1.1 =
        firstMetadataNewest (tailAfter seg v) := by
      rw [hfst]; rfl
    have hp1 : (replayCommitsPM (tailAfter seg v).reverse (none, none)).1.2 =
        firstProtocolNewest (tailAfter seg v) := by
      rw [hfst]; rfl
    have hreads : (replayCommitsPM (tailAfter seg v).reverse (none, none)).2 ≤
        (tailAfter seg v).length := by
      have := replayCommitsPM_reads_le (tailAfter seg v).reverse (none, none)
      rwa [List.length_reverse] at this
    by_cases hboth : ((replayCommitsPM (tailAfter seg v).reverse (none, none)).1.1.isSome &&
        (replayCommitsPM (tailAfter seg v).reverse (none, none)).1.2.isSome) = true
    · rw [if_pos hboth]
      rw [Bool.and_eq_true] at hboth
      obtain ⟨m0, hm0⟩ := Option.isSome_iff_exists.mp hboth.1
      obtain ⟨p0, hp0⟩ := Option.isSome_iff_exists.mp hboth.2
      refine ⟨(replayCommitsPM (tailAfter seg v).reverse (none, none)).2, ?_, hreads⟩
      have he1 : orO (firstMetadataNewest (tailAfter seg v)) (some m) = some m0 := by
        rw [← hm1, hm0]; rfl
      have he2 : orO (firstProtocolNewest (tailAfter seg v)) (some p) = some p0 := by
        rw [← hp1, hp0]; rfl
      rw [he1, he2, ← hm0, ← hp0]
    · rw [if_neg hboth]
      simp only [readCrc, hm, hp]
      refine ⟨(replayCommitsPM (tailAfter seg v).reverse (none, none)).2, ?_, hreads⟩
      rw [← hm1, ← hp1]
      rfl
  · intro v content cv hcrc hv hcp hle
    unfold PmSegment.protocol_and_metadata
    simp only [hcrc]
    rw [if_neg (by omega)]
    have hcond : (decide (v < seg.end_version) &&
        seg.checkpoint_version.all (fun cv => decide (cv < v))) = false := by
      rw [Bool.and_eq_false_iff]
      right
      simp [hcp, Option.all]
      omega
    rw [if_neg (by simp [hcond])]
    rw [fullReplayPM_crc_irrelevant seg none]
  · intro hnone
    unfold PmSegment.protocol_and_metadata
    simp only [hnone]

/-- C2 witness: the theorem's CRC-at-target branch applied to the
`test_protocol_metadata_with_crc_at_target_version` configuration: one commit
at version 5, a well-formed CRC at version 5, end version 5 — the CRC's
protocol and metadata come back with zero replay reads. -/
theorem c2_protocol_and_metadata_witness :
    PmSegment.protocol_and_metadata
      ⟨none, none, none, [⟨5, none, none⟩], some (5, ⟨some ⟨3, 7⟩, some ⟨"t5"⟩⟩), 5⟩ =
      .ok ((some ⟨"t5"⟩, some ⟨3, 7⟩), 0) :=
  (c2_protocol_and_metadata
      ⟨none, none, none, [⟨5, none, none⟩], some (5, ⟨some ⟨3, 7⟩, some ⟨"t5"⟩⟩), 5⟩).1
    5 ⟨some ⟨3, 7⟩, some ⟨"t5"⟩⟩ ⟨"t5"⟩ ⟨3, 7⟩ rfl rfl rfl rfl

/-- C8: when `protocol_and_metadata` consults a CRC file that lacks its
protocol or its metadata sub-object, the call fails with an error: both when
the CRC sits at exactly the end version (where it would answer directly) and
when it is the fallback of a pruned tail replay that did not find both
actions.  The missing field is never filled from replay. -/
theorem c8_crc_missing_field (seg : PmSegment) (v : Nat) (content : CrcFileContent)
    (hcrc : seg.latest_crc = some (v, content))
    (hmal : content.protocol = none ∨ content.metadata = none) :
    (v = seg.end_version → ∃ e, seg.protocol_and_metadata = .error e) ∧
    (v < seg.end_version →
      (∀ cv, seg.checkpoint_version = some cv → cv < v) →
      (firstMetadataNewest (tailAfter seg v) = none ∨
        firstProtocolNewest (tailAfter seg v) = none) →
      ∃ e, seg.protocol_and_metadata = .error e) := by
  have hread : ∃ e0, readCrc content = .error e0 := by
    rcases hmal with hp | hm
    · exact ⟨.crcMissingProtocol, by simp [readCrc, hp]⟩
    · cases hpc : content.protocol with
      | none => exact ⟨.crcMissingProtocol, by simp [readCrc, hpc]⟩
      | some p => exact ⟨.crcMissingMetadata, by simp [readCrc, hm, hpc]⟩
  obtain ⟨e0, he0⟩ := hread
  constructor
  · intro hv
    unfold PmSegment.protocol_and_metadata
    simp only [hcrc]
    rw [if_pos hv, he0]
    exact ⟨e0, rfl⟩
  · intro hv hcp hmiss
    unfold PmSegment.protocol_and_metadata
    simp only [hcrc]
    rw [if_neg (by omega)]
    have hcond : (decide (v < seg.end_version) &&
        seg.checkpoint_version.all (fun cv => decide (cv < v))) = true := by
      rw [Bool.and_eq_true, decide_eq_true_eq]
      refine ⟨hv, ?_⟩
      cases hc : seg.checkpoint_version with
      | none => rfl
      | some cv => simpa [Option.all] using hcp cv hc
    rw [if_pos hcond]
    have hfst := replayCommitsPM_fst (tailAfter seg v).reverse (none, none)
    have hboth : ((replayCommitsPM (tailAfter seg v).reverse (none, none)).1.1.isSome &&
        (replayCommitsPM (tailAfter seg v).reverse (none, none)).1.2.isSome) = false := by
      rcases hmiss with hm0 | hp0
      · have h1 : (replayCommitsPM (tailAfter seg v).reverse (none, none)).1.1 = none := by
          rw [hfst]; exact hm0
        simp [h1]
      · have h1 : (replayCommitsPM (tailAfter seg v).reverse (none, none)).1.2 = none := by
          rw [hfst]; exact hp0
        simp [h1]
    rw [if_neg (by simp [hboth]), he0]
    exact ⟨e0, rfl⟩

/-- C8 witness: the theorem applied to the
`test_protocol_metadata_crc_without_protocol_should_error` configuration: a
CRC at the end version whose protocol sub-object is missing makes the call
fail. -/
theorem c8_crc_missing_field_witness :
    ∃ e, PmSegment.protocol_and_metadata
      ⟨none, none, none, [⟨5, none, none⟩], some (5, ⟨none, some ⟨"t5"⟩⟩), 5⟩ =
      .error e :=
  (c8_crc_missing_field
      ⟨none, none, none, [⟨5, none, none⟩], some (5, ⟨none, some ⟨"t5"⟩⟩), 5⟩
      5 ⟨none, some ⟨"t5"⟩⟩ rfl (Or.inl rfl)).1 rfl

theorem containsPath_iff_mem {s : List String} {p : String} :
    containsPath s p = true ↔ p ∈ s := by
  unfold containsPath
  rw [List.any_eq_true]
  constructor
  · rintro ⟨q, hq, hqp⟩
    rw [decide_eq_true_eq] at hqp
    exact hqp ▸ hq
  · intro hp
    exact ⟨p, hp, by simp⟩

theorem containsPath_insertPath (s : List String) (p q : String) :
    containsPath (insertPath s p) q = true ↔ containsPath s q = true ∨ q = p := by
  unfold insertPath
  by_cases hmem : s.any (fun q0 => decide (q0 = p)) = true
  · rw [if_pos hmem]
    constructor
    · exact Or.inl
    · rintro (h | rfl)
      · exact h
      · exact hmem
  · rw [if_neg hmem]
    unfold containsPath
    rw [List.any_append, Bool.or_eq_true]
    apply or_congr Iff.rfl
    simp [eq_comm]

theorem containsKey_insertDv (m : List (String × DvInfo)) (k : String) (v : DvInfo)
    (p : String) :
    containsKey (insertDv m k v) p = true ↔ containsKey m p = true ∨ p = k := by
  unfold insertDv containsKey
  by_cases hmem : m.any (fun kv => decide (kv.1 = k)) = true
  · rw [if_pos hmem]
    rw [List.any_eq_true] at hmem
    obtain ⟨kv1, hkv1, hk1⟩ := hmem
    rw [decide_eq_true_eq] at hk1
    constructor
    · intro hin
      rw [List.any_eq_true] at hin
      obtain ⟨kv, hkv, hp⟩ := hin
      rw [List.mem_map] at hkv
      obtain ⟨kv0, hkv0, rfl⟩ := hkv
      rw [decide_eq_true_eq] at hp
      by_cases hk : kv0.1 = k
      · rw [if_pos hk] at hp
        exact Or.inr hp.symm
      · rw [if_neg hk] at hp
        refine Or.inl ?_
        rw [List.any_eq_true]
        exact ⟨kv0, hkv0, by rw [decide_eq_true_eq]; exact hp⟩
    · intro hor
      rw [List.any_eq_true]
      rcases hor with hold | hpk
      · rw [List.any_eq_true] at hold
        obtain ⟨kv0, hkv0, hp⟩ := hold
        rw [decide_eq_true_eq] at hp
        by_cases hk : kv0.1 = k
        · refine ⟨(k, v), List.mem_map.mpr ⟨kv0, hkv0, by rw [if_pos hk]⟩, ?_⟩
          rw [decide_eq_true_eq, ← hk, hp]
        · refine ⟨kv0, List.mem_map.mpr ⟨kv0, hkv0, by rw [if_neg hk]⟩, ?_⟩
          rw [decide_eq_true_eq]; exact hp
      · refine ⟨(k, v), List.mem_map.mpr ⟨kv1, hkv1, by rw [if_pos hk1]⟩, ?_⟩
        rw [decide_eq_true_eq]
        exact hpk.symm
  · rw [if_neg hmem]
    rw [List.any_append, Bool.or_eq_true]
    apply or_congr Iff.rfl
    simp [eq_comm]

theorem containsKey_filter_addPaths (m : List (String × DvInfo)) (s : List String)
    (p : String) :
    containsKey (m.filter (fun kv => containsPath s kv.1)) p = true ↔
      containsKey m p = true ∧ containsPath s p = true := by
  unfold containsKey
  rw [List.any_eq_true, List.any_eq_true]
  constructor
  · rintro ⟨kv, hkv, hp⟩
    rw [List.mem_filter] at hkv
    rw [decide_eq_true_eq] at hp
    exact ⟨⟨kv, hkv.1, by rw [decide_eq_true_eq]; exact hp⟩, hp ▸ hkv.2⟩
  · rintro ⟨⟨kv, hkv, hp⟩, hs⟩
    rw [decide_eq_true_eq] at hp
    exact ⟨kv, List.mem_filter.mpr ⟨hkv, hp ▸ hs⟩, by rw [decide_eq_true_eq]; exact hp⟩

theorem dcRemovePathsRows_cons_remove_true (path : String) (dv : Option String)
    (rest : List ActionRow) :
    dcRemovePathsRows (.remove path true dv :: rest) = path :: dcRemovePathsRows rest := rfl

theorem dcAddPathsRows_cons_add_true (path : String) (rest : List ActionRow) :
    dcAddPathsRows (.add path true :: rest) = path :: dcAddPathsRows rest := rfl

theorem prepStep_fold_removeKeys_sub :
    ∀ (rows : List ActionRow) (st : PrepareAcc × Option Bool × Option (String × Bool))
      (p : String),
      containsKey (rows.foldl prepStep st).1.remove_dvs p = true →
      containsKey st.1.remove_dvs p = true ∨ p ∈ dcRemovePathsRows rows := by
  intro rows
  induction rows with
  | nil => intro st p h; exact Or.inl h
  | cons row rest ih =>
    intro st p h
    rw [List.foldl_cons] at h
    rcases ih _ p h with hstep | htail
    · cases row with
      | add path dc =>
        simp only [prepStep, prepareVisitRow] at hstep
        by_cases hc : (!st.1.has_cdc_action && dc) = true
        · rw [if_pos hc] at hstep
          exact Or.inl hstep
        · rw [if_neg hc] at hstep
          exact Or.inl hstep
      | remove path dc dv =>
        simp only [prepStep, prepareVisitRow] at hstep
        by_cases hc : (!st.1.has_cdc_action && dc) = true
        · rw [if_pos hc] at hstep
          simp only at hstep
          rcases (containsKey_insertDv _ _ _ _).mp hstep with hold | rfl
          · exact Or.inl hold
          · right
            rw [Bool.and_eq_true] at hc
            have hdc : dc = true := hc.2
            subst hdc
            simp [dcRemovePathsRows, List.filterMap_cons]
        · rw [if_neg hc] at hstep
          exact Or.inl hstep
      | cdc path => exact Or.inl hstep
      | metaData a b => exact Or.inl hstep
      | protocol a => exact Or.inl hstep
      | other => exact Or.inl hstep
    · right
      cases row with
      | remove path dc dv =>
        cases dc with
        | true =>
          rw [dcRemovePathsRows_cons_remove_true]
          exact List.mem_cons_of_mem _ htail
        | false => exact htail
      | add path dc => exact htail
      | cdc path => exact htail
      | metaData a b => exact htail
      | protocol a => exact htail
      | other => exact htail

theorem prepStep_fold_exact :
    ∀ (rows : List ActionRow) (st : PrepareAcc × Option Bool × Option (String × Bool)),
      st.1.has_cdc_action = false →
      rows.any isCdcRow = false →
      (rows.foldl prepStep st).1.has_cdc_action = false ∧
      (∀ p, containsPath (rows.foldl prepStep st).1.add_paths p = true ↔
        (containsPath st.1.add_paths p = true ∨ p ∈ dcAddPathsRows rows)) ∧
      (∀ p, containsKey (rows.foldl prepStep st).1.remove_dvs p = true ↔
        (containsKey st.1.remove_dvs p = true ∨ p ∈ dcRemovePathsRows rows)) := by
  intro rows
  induction rows with
  | nil =>
    intro st hcdc _
    refine ⟨hcdc, fun p => ?_, fun p => ?_⟩ <;>
      simp [dcAddPathsRows, dcRemovePathsRows]
  | cons row rest ih =>
    intro st hcdc hany
    have hrow : isCdcRow row = false := by
      cases hr : isCdcRow row
      · rfl
      · rw [List.any_cons, hr, Bool.true_or] at hany; cases hany
    have hrest : rest.any isCdcRow = false := by
      cases hr : rest.any isCdcRow
      · rfl
      · rw [List.any_cons, hr, Bool.or_true] at hany; cases hany
    rw [List.foldl_cons]
    cases row with
    | add path dc =>
      cases dc with
      | true =>
        have hst : prepStep st (.add path true) =
            ({ st.1 with add_paths := insertPath st.1.add_paths path }, st.2.1, st.2.2) := by
          simp [prepStep, prepareVisitRow, hcdc]
        rw [hst]
        obtain ⟨h1, h2, h3⟩ := ih ({ st.1 with
          add_paths := insertPath st.1.add_paths path }, st.2.1, st.2.2) hcdc hrest
        refine ⟨h1, fun p => ?_, fun p => ?_⟩
        · rw [h2 p]
          show containsPath (insertPath st.1.add_paths path) p = true ∨ _ ↔ _
          rw [containsPath_insertPath, dcAddPathsRows_cons_add_true, List.mem_cons]
          tauto
        · exact h3 p
      | false =>
        have hst : prepStep st (.add path false) = (st.1, st.2.1, st.2.2) := by
          simp [prepStep, prepareVisitRow]
        rw [hst]
        obtain ⟨h1, h2, h3⟩ := ih (st.1, st.2.1, st.2.2) hcdc hrest
        exact ⟨h1, h2, h3⟩
    | remove path dc dv =>
      cases dc with
      | true =>
        have hst : prepStep st (.remove path true dv) =
            ({ st.1 with remove_dvs := insertDv st.1.remove_dvs path ⟨dv⟩ },
              st.2.1, st.2.2) := by
          simp [prepStep, prepareVisitRow, hcdc]
        rw [hst]
        obtain ⟨h1, h2, h3⟩ := ih ({ st.1 with
          remove_dvs := insertDv st.1.remove_dvs path ⟨dv⟩ }, st.2.1, st.2.2) hcdc hrest
        refine ⟨h1, fun p => ?_, fun p => ?_⟩
        · exact h2 p
        · rw [h3 p]
          show containsKey (insertDv st.1.remove_dvs path ⟨dv⟩) p = true ∨ _ ↔ _
          rw [containsKey_insertDv, dcRemovePathsRows_cons_remove_true, List.mem_cons]
          tauto
      | false =>
        have hst : prepStep st (.remove path false dv) = (st.1, st.2.1, st.2.2) := by
          simp [prepStep, prepareVisitRow]
        rw [hst]
        obtain ⟨h1, h2, h3⟩ := ih (st.1, st.2.1, st.2.2) hcdc hrest
        exact ⟨h1, h2, h3⟩
    | cdc path => exact absurd hrow (by simp [isCdcRow])
    | metaData a b =>
      obtain ⟨h1, h2, h3⟩ := ih (prepStep st (.metaData a b)) hcdc hrest
      exact ⟨h1, h2, h3⟩
    | protocol a =>
      obtain ⟨h1, h2, h3⟩ := ih (prepStep st (.protocol a)) hcdc hrest
      exact ⟨h1, h2, h3⟩
    | other =>
      obtain ⟨h1, h2, h3⟩ := ih (prepStep st .other) hcdc hrest
      exact ⟨h1, h2, h3⟩

theorem prepareVisitBatch_exact (acc : PrepareAcc) (rows : List ActionRow)
    (hcdc : acc.has_cdc_action = false) (hany : rows.any isCdcRow = false) :
    (prepareVisitBatch acc rows).1.has_cdc_action = false ∧
    (∀ p, containsPath (prepareVisitBatch acc rows).1.add_paths p = true ↔
      (containsPath acc.add_paths p = true ∨ p ∈ dcAddPathsRows rows)) ∧
    (∀ p, containsKey (prepareVisitBatch acc rows).1.remove_dvs p = true ↔
      (containsKey acc.remove_dvs p = true ∨ p ∈ dcRemovePathsRows rows)) :=
  prepStep_fold_exact rows (acc, none, none) hcdc hany

theorem prepareVisitBatch_removeKeys_sub (acc : PrepareAcc) (rows : List ActionRow)
    (p : String)
    (h : containsKey (prepareVisitBatch acc rows).1.remove_dvs p = true) :
    containsKey acc.remove_dvs p = true ∨ p ∈ dcRemovePathsRows rows :=
  prepStep_fold_removeKeys_sub rows (acc, none, none) p h

theorem preparePhaseGo_exact :
    ∀ (batches : List (List ActionRow)) (version : Nat) (tableSchema : String)
      (acc acc2 : PrepareAcc),
      preparePhaseGo version tableSchema batches acc = .ok acc2 →
      acc.has_cdc_action = false →
      batches.flatten.any isCdcRow = false →
      acc2.has_cdc_action = false ∧
      (∀ p, containsPath acc2.add_paths p = true ↔
        (containsPath acc.add_paths p = true ∨ p ∈ dcAddPathsRows batches.flatten)) ∧
      (∀ p, containsKey acc2.remove_dvs p = true ↔
        (containsKey acc.remove_dvs p = true ∨ p ∈ dcRemovePathsRows batches.flatten)) := by
  intro batches
  induction batches with
  | nil =>
    intro version tableSchema acc acc2 hok hcdc _
    simp only [preparePhaseGo] at hok
    cases hok
    refine ⟨hcdc, fun p => ?_, fun p => ?_⟩ <;>
      simp [dcAddPathsRows, dcRemovePathsRows]
  | cons rows rest ih =>
    intro version tableSchema acc acc2 hok hcdc hany
    rw [List.flatten_cons, List.any_append] at hany
    have hrows : rows.any isCdcRow = false := by
      cases hr : rows.any isCdcRow
      · rfl
      · rw [hr, Bool.true_or] at hany; cases hany
    have hrest : rest.flatten.any isCdcRow = false := by
      cases hr : rest.flatten.any isCdcRow
      · rfl
      · rw [hr, Bool.or_true] at hany; cases hany
    simp only [preparePhaseGo] at hok
    cases hcb : checkBatchPM version tableSchema (prepareVisitBatch acc rows).2.1
        (prepareVisitBatch acc rows).2.2 with
    | error e => rw [hcb] at hok; cases hok
    | ok u =>
      rw [hcb] at hok
      obtain ⟨b1, b2, b3⟩ := prepareVisitBatch_exact acc rows hcdc hrows
      obtain ⟨i1, i2, i3⟩ := ih version tableSchema (prepareVisitBatch acc rows).1 acc2
        hok b1 hrest
      refine ⟨i1, fun p => ?_, fun p => ?_⟩
      · rw [i2 p, b2 p]
        rw [List.flatten_cons]
        show _ ↔ _ ∨ p ∈ dcAddPathsRows (rows ++ rest.flatten)
        unfold dcAddPathsRows
        rw [List.filterMap_append, List.mem_append]
        tauto
      · rw [i3 p, b3 p]
        rw [List.flatten_cons]
        show _ ↔ _ ∨ p ∈ dcRemovePathsRows (rows ++ rest.flatten)
        unfold dcRemovePathsRows
        rw [List.filterMap_append, List.mem_append]
        tauto

theorem preparePhaseGo_removeKeys_sub :
    ∀ (batches : List (List ActionRow)) (version : Nat) (tableSchema : String)
      (acc acc2 : PrepareAcc),
      preparePhaseGo version tableSchema batches acc = .ok acc2 →
      ∀ p, containsKey acc2.remove_dvs p = true →
        containsKey acc.remove_dvs p = true ∨ p ∈ dcRemovePathsRows batches.flatten := by
  intro batches
  induction batches with
  | nil =>
    intro version tableSchema acc acc2 hok p hp
    simp only [preparePhaseGo] at hok
    cases hok
    exact Or.inl hp
  | cons rows rest ih =>
    intro version tableSchema acc acc2 hok p hp
    simp only [preparePhaseGo] at hok
    cases hcb : checkBatchPM version tableSchema (prepareVisitBatch acc rows).2.1
        (prepareVisitBatch acc rows).2.2 with
    | error e => rw [hcb] at hok; cases hok
    | ok u =>
      rw [hcb] at hok
      rcases ih version tableSchema (prepareVisitBatch acc rows).1 acc2 hok p hp with
        hbatch | hrest
      · rcases prepareVisitBatch_removeKeys_sub acc rows p hbatch with hacc | hrows
        · exact Or.inl hacc
        · right
          rw [List.flatten_cons]
          unfold dcRemovePathsRows
          rw [List.filterMap_append, List.mem_append]
          exact Or.inl hrows
      · right
        rw [List.flatten_cons]
        unfold dcRemovePathsRows
        rw [List.filterMap_append, List.mem_append]
        exact Or.inr hrest

theorem selectionVisitRow_unselected (remove_dvs : List (String × DvInfo))
    (has_cdc_action : Bool) (row : ActionRow) :
    selectionVisitRow remove_dvs has_cdc_action false row = false := rfl

theorem selectionVisitRow_nonfile (remove_dvs : List (String × DvInfo))
    (has_cdc_action : Bool) (sel : Bool) (row : ActionRow)
    (h : isFileAction row = false) :
    selectionVisitRow remove_dvs has_cdc_action sel row = false := by
  cases sel with
  | false => rfl
  | true =>
    cases row with
    | add p dc => simp [isFileAction] at h
    | remove p dc dv => simp [isFileAction] at h
    | cdc p => simp [isFileAction] at h
    | metaData a b => cases has_cdc_action <;> rfl
    | protocol a => cases has_cdc_action <;> rfl
    | other => cases has_cdc_action <;> rfl

theorem selectionVisitRow_add_false (remove_dvs : List (String × DvInfo))
    (has_cdc_action : Bool) (sel : Bool) (p : String) :
    selectionVisitRow remove_dvs has_cdc_action sel (.add p false) = false := by
  cases sel <;> cases has_cdc_action <;> rfl

theorem selectionVisitRow_remove_false (remove_dvs : List (String × DvInfo))
    (has_cdc_action : Bool) (sel : Bool) (p : String) (dv : Option String) :
    selectionVisitRow remove_dvs has_cdc_action sel (.remove p false dv) = false := by
  cases sel <;> cases has_cdc_action <;> rfl

theorem selectionVisitRow_remove_nocdc (remove_dvs : List (String × DvInfo))
    (p : String) (dc : Bool) (dv : Option String) :
    selectionVisitRow remove_dvs false true (.remove p dc dv) =
      (dc && !(containsKey remove_dvs p)) := rfl

theorem build_selection_vector_length (filter : Option (ActionRow → Bool))
    (rows : List ActionRow) :
    (build_selection_vector filter rows).length = rows.length := by
  cases filter <;> simp [build_selection_vector]

theorem selectionVisitBatch_getD (remove_dvs : List (String × DvInfo))
    (has_cdc_action : Bool) :
    ∀ (sel : List Bool) (rows : List ActionRow) (i : Nat),
      (selectionVisitBatch remove_dvs has_cdc_action sel rows).getD i false =
        if i < sel.length ∧ i < rows.length then
          selectionVisitRow remove_dvs has_cdc_action (sel.getD i false)
            (rows.getD i .other)
        else false := by
  intro sel
  induction sel with
  | nil =>
    intro rows i
    rw [if_neg (by simp)]
    simp [selectionVisitBatch]
  | cons b bs ih =>
    intro rows i
    cases rows with
    | nil =>
      rw [if_neg (by simp)]
      simp [selectionVisitBatch]
    | cons r rs =>
      cases i with
      | zero =>
        rw [if_pos ⟨Nat.succ_pos _, Nat.succ_pos _⟩]
        rfl
      | succ i =>
        have heq : selectionVisitBatch remove_dvs has_cdc_action (b :: bs) (r :: rs) =
            selectionVisitRow remove_dvs has_cdc_action b r ::
              selectionVisitBatch remove_dvs has_cdc_action bs rs := rfl
        rw [heq, List.getD_cons_succ, ih rs i, List.getD_cons_succ, List.getD_cons_succ]
        by_cases hc : i < bs.length ∧ i < rs.length
        · rw [if_pos hc, if_pos ⟨Nat.succ_lt_succ hc.1, Nat.succ_lt_succ hc.2⟩]
        · rw [if_neg hc, if_neg (fun hcc =>
            hc ⟨Nat.lt_of_succ_lt_succ hcc.1, Nat.lt_of_succ_lt_succ hcc.2⟩)]

/-- C9: per batch, the emitted selection vector only narrows the
data-skipping selection vector (every selected row was already selected by
the data-skipping filter), and every row that is not a file action is left
unselected. -/
theorem c9_selection_only_narrows (filter : Option (ActionRow → Bool))
    (has_cdc_action : Bool) (remove_dvs : List (String × DvInfo))
    (rows : List ActionRow) :
    (∀ i, (process_actions_batch filter has_cdc_action remove_dvs
        rows).selection_vector.getD i false = true →
      (build_selection_vector filter rows).getD i false = true) ∧
    (∀ i, isFileAction (rows.getD i ActionRow.other) = false →
      (process_actions_batch filter has_cdc_action remove_dvs
        rows).selection_vector.getD i false = false) := by
  have hsv : (process_actions_batch filter has_cdc_action remove_dvs
      rows).selection_vector =
      selectionVisitBatch remove_dvs has_cdc_action
        (build_selection_vector filter rows) rows := rfl
  constructor
  · intro i hout
    rw [hsv, selectionVisitBatch_getD] at hout
    by_cases hc : i < (build_selection_vector filter rows).length ∧ i < rows.length
    · rw [if_pos hc] at hout
      cases hsel : (build_selection_vector filter rows).getD i false with
      | true => rfl
      | false =>
        rw [hsel, selectionVisitRow_unselected] at hout
        cases hout
    · rw [if_neg hc] at hout
      cases hout
  · intro i hrow
    rw [hsv, selectionVisitBatch_getD]
    by_cases hc : i < (build_selection_vector filter rows).length ∧ i < rows.length
    · rw [if_pos hc]
      exact selectionVisitRow_nonfile _ _ _ _ hrow
    · rw [if_neg hc]

theorem c9_selection_only_narrows_witness :
    isFileAction ([ActionRow.metaData "s" true].getD 0 ActionRow.other) = false ∧
    (process_actions_batch none false [] [ActionRow.metaData "s" true]).selection_vector.getD
      0 false = false :=
  ⟨by decide,
    (c9_selection_only_narrows none false [] [ActionRow.metaData "s" true]).2 0 (by decide)⟩

theorem containsKey_nil (p : String) : containsKey [] p = false := rfl

/-- C10: `dataChange = false` file actions are ignored by the table-changes
replay: a path can only enter the surviving remove-DV map through a
`dataChange = true` remove of the commit, and a `dataChange = false` add or
remove row is never selected in the emitted selection vector. -/
theorem c10_data_change_false_ignored (tableSchema : String) :
    (∀ (commit : TcCommitFile) (hasCdc : Bool) (dvs : List (String × DvInfo)),
      prepare_phase tableSchema commit = .ok (hasCdc, dvs) →
      ∀ p, containsKey dvs p = true → p ∈ dcRemovePaths commit) ∧
    (∀ (filter : Option (ActionRow → Bool)) (has_cdc_action : Bool)
      (remove_dvs : List (String × DvInfo)) (rows : List ActionRow) (i : Nat),
      ((∃ p, rows.getD i ActionRow.other = ActionRow.add p false) ∨
        (∃ p dv, rows.getD i ActionRow.other = ActionRow.remove p false dv)) →
      (process_actions_batch filter has_cdc_action remove_dvs
        rows).selection_vector.getD i false = false) := by
  constructor
  · intro commit hasCdc dvs hok p hp
    unfold prepare_phase at hok
    cases hgo : preparePhaseGo commit.version tableSchema commit.batches ⟨[], [], false⟩ with
    | error e => rw [hgo] at hok; cases hok
    | ok acc =>
      simp only [hgo] at hok
      by_cases hcdc : acc.has_cdc_action = true
      · rw [if_pos hcdc] at hok
        cases hok
        rw [containsKey_nil] at hp
        cases hp
      · rw [if_neg hcdc] at hok
        cases hok
        rcases (containsKey_filter_addPaths _ _ _).mp hp with ⟨hrem, _⟩
        rcases preparePhaseGo_removeKeys_sub commit.batches commit.version tableSchema
            ⟨[], [], false⟩ acc hgo p hrem with hinit | hmem
        · rw [containsKey_nil] at hinit
          cases hinit
        · exact hmem
  · intro filter has_cdc_action remove_dvs rows i hrow
    have hsv : (process_actions_batch filter has_cdc_action remove_dvs
        rows).selection_vector =
        selectionVisitBatch remove_dvs has_cdc_action
          (build_selection_vector filter rows) rows := rfl
    rw [hsv, selectionVisitBatch_getD]
    by_cases hc : i < (build_selection_vector filter rows).length ∧ i < rows.length
    · rw [if_pos hc]
      rcases hrow with ⟨p, hadd⟩ | ⟨p, dv, hrem⟩
      · rw [hadd]
        exact selectionVisitRow_add_false _ _ _ _
      · rw [hrem]
        exact selectionVisitRow_remove_false _ _ _ _ _
    · rw [if_neg hc]

theorem c10_data_change_false_ignored_witness :
    prepare_phase "s" pairDcFalseCommit = .ok (false, []) ∧
    (containsKey ([] : List (String × DvInfo)) "x" = true →
      "x" ∈ dcRemovePaths pairDcFalseCommit) ∧
    (process_actions_batch none false [] [ActionRow.add "p" false]).selection_vector.getD
      0 false = false :=
  ⟨rfl, fun h => (c10_data_change_false_ignored "s").1 pairDcFalseCommit false []
      rfl "x" h,
    (c10_data_change_false_ignored "s").2 none false [] [ActionRow.add "p" false] 0
      (Or.inl ⟨"p", rfl⟩)⟩

theorem dcRemovePaths_eq_rows (commit : TcCommitFile) :
    dcRemovePaths commit = dcRemovePathsRows commit.batches.flatten := rfl

theorem dcAddPaths_eq_rows (commit : TcCommitFile) :
    dcAddPaths commit = dcAddPathsRows commit.batches.flatten := rfl

/-- C4 (amended): in a commit with no cdc action whose prepare phase
succeeds, the surviving remove-DV map holds exactly the paths removed with
`dataChange = true` that also appear as `dataChange = true` adds of the same
commit, and a selected remove row survives the selection visitor exactly
when its `dataChange` flag is set and its path is not in that map — a remove
paired with a `dataChange = true` add of the same path is therefore
excluded, but a remove whose path reappears only as a `dataChange = false`
add stays selected. -/
theorem c4_dv_pairing_amended (tableSchema : String) (commit : TcCommitFile)
    (hasCdc : Bool) (removeDvs : List (String × DvInfo))
    (hnocdc : hasCdcRow commit = false)
    (hok : prepare_phase tableSchema commit = .ok (hasCdc, removeDvs)) :
    hasCdc = false ∧
    (∀ p, containsKey removeDvs p = true ↔
      (p ∈ dcRemovePaths commit ∧ p ∈ dcAddPaths commit)) ∧
    (∀ (filter : Option (ActionRow → Bool)) (rows : List ActionRow) (i : Nat)
      (p : String) (dc : Bool) (dv : Option String),
      rows.getD i ActionRow.other = ActionRow.remove p dc dv →
      ((process_actions_batch filter hasCdc removeDvs rows).selection_vector.getD
          i false = true ↔
        ((build_selection_vector filter rows).getD i false = true ∧ dc = true ∧
          containsKey removeDvs p = false))) := by
  unfold prepare_phase at hok
  cases hgo : preparePhaseGo commit.version tableSchema commit.batches ⟨[], [], false⟩ with
  | error e => rw [hgo] at hok; cases hok
  | ok acc =>
    simp only [hgo] at hok
    have hflat : commit.batches.flatten.any isCdcRow = false := hnocdc
    obtain ⟨g1, g2, g3⟩ := preparePhaseGo_exact commit.batches commit.version tableSchema
      ⟨[], [], false⟩ acc hgo rfl hflat
    rw [if_neg (by rw [g1]; exact Bool.false_ne_true)] at hok
    cases hok
    refine ⟨rfl, fun p => ?_, ?_⟩
    · rw [containsKey_filter_addPaths, g3 p, g2 p, dcRemovePaths_eq_rows,
        dcAddPaths_eq_rows, containsKey_nil]
      show (false = true ∨ _) ∧ (containsPath [] p = true ∨ _) ↔ _
      rw [show containsPath [] p = false from rfl]
      simp
    · intro filter rows i p dc dv hrow
      have hsv : (process_actions_batch filter false
          (acc.remove_dvs.filter (fun kv => containsPath acc.add_paths kv.1))
          rows).selection_vector =
          selectionVisitBatch
            (acc.remove_dvs.filter (fun kv => containsPath acc.add_paths kv.1)) false
            (build_selection_vector filter rows) rows := rfl
      rw [hsv, selectionVisitBatch_getD]
      by_cases hc : i < (build_selection_vector filter rows).length ∧ i < rows.length
      · rw [if_pos hc, hrow]
        cases hsel : (build_selection_vector filter rows).getD i false with
        | false =>
          rw [selectionVisitRow_unselected]
          constructor
          · intro h; cases h
          · intro h
            exact absurd h.1 Bool.false_ne_true
        | true =>
          rw [selectionVisitRow_remove_nocdc]
          constructor
          · intro h
            rw [Bool.and_eq_true, Bool.not_eq_true'] at h
            exact ⟨rfl, h.1, h.2⟩
          · intro h
            rw [Bool.and_eq_true, Bool.not_eq_true']
            exact ⟨h.2.1, h.2.2⟩
      · exfalso
        apply hc
        constructor
        · rw [build_selection_vector_length]
          by_contra hlen
          rw [List.getD_eq_default _ _ (Nat.le_of_not_lt hlen)] at hrow
          cases hrow
        · by_contra hlen
          rw [List.getD_eq_default _ _ (Nat.le_of_not_lt hlen)] at hrow
          cases hrow

theorem c4_dv_pairing_amended_witness :
    hasCdcRow dvUpdateCommit = false ∧
    prepare_phase "s" dvUpdateCommit = .ok (false, dvUpdateMap) ∧
    (false = false ∧
      (∀ p, containsKey dvUpdateMap p = true ↔
        (p ∈ dcRemovePaths dvUpdateCommit ∧ p ∈ dcAddPaths dvUpdateCommit)) ∧
      (∀ (filter : Option (ActionRow → Bool)) (rows : List ActionRow) (i : Nat)
        (p : String) (dc : Bool) (dv : Option String),
        rows.getD i ActionRow.other = ActionRow.remove p dc dv →
        ((process_actions_batch filter false dvUpdateMap rows).selection_vector.getD
            i false = true ↔
          ((build_selection_vector filter rows).getD i false = true ∧ dc = true ∧
            containsKey dvUpdateMap p = false)))) :=
  ⟨by decide, rfl,
    c4_dv_pairing_amended "s" dvUpdateCommit false dvUpdateMap (by decide) rfl⟩

theorem c4_dv_pairing_counterexample :
    (table_changes_action_iter "s" none [pairDcFalseCommit] =
      .ok [⟨[.add "part-1.parquet" false, .remove "part-1.parquet" true (some "dv1")],
        [false, true], []⟩]) ∧
    "part-1.parquet" ∈ (rowsOf pairDcFalseCommit).filterMap
      (fun r => match r with | .add p _ => some p | _ => none) := by
  constructor
  · rfl
  · decide

theorem mapE_ok_forall {α β : Type} (f : α → Except DeltaError β) :
    ∀ (l : List α) (bs : List β), mapE f l = .ok bs → ∀ a ∈ l, ∃ b, f a = .ok b := by
  intro l
  induction l with
  | nil => intro bs _ a ha; cases ha
  | cons x rest ih =>
    intro bs hok a ha
    simp only [mapE] at hok
    cases hfx : f x with
    | error e => rw [hfx] at hok; cases hok
    | ok b =>
      rw [hfx] at hok
      cases hrest : mapE f rest with
      | error e => rw [hrest] at hok; cases hok
      | ok bs2 =>
        rw [hrest] at hok
        rcases List.mem_cons.mp ha with rfl | ha2
        · exact ⟨b, hfx⟩
        · exact ih bs2 hrest a ha2

theorem mapE_error_of_mem {α β : Type} (f : α → Except DeltaError β) :
    ∀ (l : List α) (a : α), a ∈ l → (∃ e, f a = .error e) →
      ∃ e2, mapE f l = .error e2 := by
  intro l
  induction l with
  | nil => intro a ha _; cases ha
  | cons x rest ih =>
    intro a ha he
    obtain ⟨e, he⟩ := he
    rcases List.mem_cons.mp ha with rfl | ha2
    · exact ⟨e, by simp only [mapE]; rw [he]⟩
    · cases hfx : f x with
      | error e2 => exact ⟨e2, by simp only [mapE]; rw [hfx]⟩
      | ok b =>
        obtain ⟨e3, he3⟩ := ih a ha2 ⟨e, he⟩
        exact ⟨e3, by simp only [mapE]; rw [hfx, he3]⟩

/-- C6 (amended): `table_changes_action_iter` is eager, not lazy — every
commit's prepare phase runs at construction: a successful return means every
commit's prepare phase succeeded, and any commit whose prepare phase fails
makes the call itself return the error before any output is consumed. -/
theorem c6_action_iter_eager (tableSchema : String)
    (filter : Option (ActionRow → Bool)) (commits : List TcCommitFile) :
    (∀ outs, table_changes_action_iter tableSchema filter commits = .ok outs →
      ∀ c ∈ commits, ∃ hd, prepare_phase tableSchema c = .ok hd) ∧
    (∀ c ∈ commits, (∃ e, prepare_phase tableSchema c = .error e) →
      ∃ e2, table_changes_action_iter tableSchema filter commits = .error e2) := by
  constructor
  · intro outs hok c hc
    unfold table_changes_action_iter at hok
    cases hm : mapE (TableChangesLogReplayProcessor.new tableSchema filter) commits with
    | error e => rw [hm] at hok; cases hok
    | ok outs2 =>
      obtain ⟨b, hb⟩ := mapE_ok_forall _ commits outs2 hm c hc
      unfold TableChangesLogReplayProcessor.new at hb
      cases hp : prepare_phase tableSchema c with
      | error e => rw [hp] at hb; cases hb
      | ok hd => exact ⟨hd, rfl⟩
  · intro c hc he
    obtain ⟨e, he⟩ := he
    have hnew : ∃ e2, TableChangesLogReplayProcessor.new tableSchema filter c =
        .error e2 := by
      refine ⟨e, ?_⟩
      unfold TableChangesLogReplayProcessor.new
      rw [he]
    obtain ⟨e3, he3⟩ := mapE_error_of_mem _ commits c hc hnew
    exact ⟨e3, by unfold table_changes_action_iter; rw [he3]⟩

theorem c6_action_iter_eager_witness :
    badProtocolCommit ∈ [okCommit, badProtocolCommit] ∧
    prepare_phase "s" badProtocolCommit =
      .error (.changeDataFeedUnsupported 1) ∧
    ∃ e2, table_changes_action_iter "s" none [okCommit, badProtocolCommit] =
      .error e2 :=
  ⟨List.mem_cons_of_mem _ (List.mem_cons_self _ _), rfl,
    (c6_action_iter_eager "s" none [okCommit, badProtocolCommit]).2 badProtocolCommit
      (List.mem_cons_of_mem _ (List.mem_cons_self _ _))
      ⟨.changeDataFeedUnsupported 1, rfl⟩⟩

theorem c6_action_iter_eager_counterexample :
    table_changes_action_iter "s" none [okCommit, badProtocolCommit] =
      .error (.changeDataFeedUnsupported 1) := rfl

end DeltaKernel
